import Mathlib

/-!
# Verification of the BATS persistent-homology engine specification

The repository's core (simplicial complexes, filtrations, Rips construction,
persistence reduction over a prime field, greedy landmark selection) is
implemented in C++ outside the python sources available here; the available
sources are the quickstart notebook and the Rips tutorial, whose recorded cell
outputs fix the observable behavior.  The definitions below are therefore
modelled from the specification, and every behavioral checkpoint recorded in
the notebook (cell outputs for `get_simplices` and `persistence_pairs`) is
re-established as a theorem about the model.
-/

namespace BATS

/-- A simplex is an ordered tuple of vertex identifiers.  Following the
notebook's warning ("Simplices in bats should generally be assumed to be
*ordered*, meaning that `[0,1,2]` is not the same as `[1,2,0]`"), identity of
simplices is identity of ordered tuples. -/
abbrev Simplex := List Nat

/-- Error kinds of the engine (spec section 7). -/
inductive Err where
  | FaceMissing
  | InvalidFiltration
  | InvalidDistanceMatrix
  | InvalidField
  | DivisionByZero
  | FieldMismatch
  | IndexOutOfRange
  | InvalidSeed
  deriving DecidableEq, Repr

/-- The codimension-1 faces of a simplex: each tuple obtained by omitting one
vertex.  A vertex (and the empty tuple) has no required faces. -/
def facets (σ : Simplex) : List Simplex :=
  if σ.length ≤ 1 then [] else (List.range σ.length).map (fun t => σ.eraseIdx t)

/-- Modelled from the spec: a simplicial complex stores, for each dimension,
the ordered sequence of simplices of that dimension (insertion order =
index).  The C++ implementation is not part of the available sources. -/
structure SimplicialComplex where
  simps : List (List Simplex)
  deriving DecidableEq, Repr

def SimplicialComplex.empty : SimplicialComplex := ⟨[]⟩

/-- The ordered list of `d`-dimensional simplices. -/
def SimplicialComplex.dimList (X : SimplicialComplex) (d : Nat) : List Simplex :=
  X.simps.getD d []

/-- Membership: a simplex is present when its ordered tuple occurs in the list
for its dimension. -/
def SimplicialComplex.memS (X : SimplicialComplex) (σ : Simplex) : Bool :=
  decide (σ ∈ X.dimList (σ.length - 1))

/-- Pad a list of lists with `[]` entries up to length `n`. -/
def padTo (L : List (List α)) (n : Nat) : List (List α) :=
  L ++ (List.replicate (n - L.length) [])

/-- Append an element to the `d`-th inner list (extending with empty lists as
needed). -/
def appendAt (L : List (List α)) (d : Nat) (a : α) : List (List α) :=
  (padTo L (d + 1)).set d ((padTo L (d + 1)).getD d [] ++ [a])

/-- Unchecked insertion of a simplex at the next free index of its dimension. -/
def SimplicialComplex.push (X : SimplicialComplex) (σ : Simplex) : SimplicialComplex :=
  ⟨appendAt X.simps (σ.length - 1) σ⟩

/-- `add` (spec 4.1): fails with `FaceMissing` if any codimension-1 face is
absent; otherwise appends the simplex with the next free index for its
dimension.  The state component of the result is unchanged on failure. -/
def SimplicialComplex.add (X : SimplicialComplex) (σ : Simplex) :
    SimplicialComplex × Option Err :=
  if (facets σ).all (fun τ => X.memS τ) then (X.push σ, none)
  else (X, some Err.FaceMissing)

/-- All length-`n` subtuples (subsequences) of a list, in lexicographic
position order: `chooseLen 2 [0,1,2] = [[0,1],[0,2],[1,2]]`. -/
def chooseLen : Nat → List α → List (List α)
  | 0, _ => [[]]
  | _ + 1, [] => []
  | n + 1, a :: l => (chooseLen n l).map (fun t => a :: t) ++ chooseLen (n + 1) l

/-- `add_recursive` (spec 4.1): every face of any dimension not already
present is inserted first, in increasing-dimension order, then the simplex
itself; never fails. -/
def SimplicialComplex.addRecursive (X : SimplicialComplex) (σ : Simplex) :
    SimplicialComplex :=
  (List.range σ.length).foldl
    (fun Y d => (chooseLen (d + 1) σ).foldl
      (fun Z τ => if Z.memS τ then Z else Z.push τ) Y) X

/-- `get_simplices()`: all simplices, by increasing dimension, each dimension
in insertion order (matching the notebook's output format). -/
def SimplicialComplex.getSimplices (X : SimplicialComplex) : List Simplex :=
  X.simps.flatten

/-! ## Filtrations -/

/-- Modelled from the spec: a filtration stores, for each dimension, the
ordered sequence of simplices of that dimension together with their real
birth values (here rationals).  The C++ implementation is not part of the
available sources. -/
structure Filtration where
  simps : List (List (Simplex × ℚ))
  deriving DecidableEq, Repr

def Filtration.empty : Filtration := ⟨[]⟩

/-- The ordered list of `d`-dimensional (simplex, birth) entries. -/
def Filtration.dimList (F : Filtration) (d : Nat) : List (Simplex × ℚ) :=
  F.simps.getD d []

def Filtration.memS (F : Filtration) (σ : Simplex) : Bool :=
  (F.dimList (σ.length - 1)).any (fun e => e.1 == σ)

/-- The stored birth value of a simplex, when present. -/
def Filtration.birthOf (F : Filtration) (σ : Simplex) : Option ℚ :=
  ((F.dimList (σ.length - 1)).find? (fun e => e.1 == σ)).map (fun e => e.2)

def Filtration.push (F : Filtration) (b : ℚ) (σ : Simplex) : Filtration :=
  ⟨appendAt F.simps (σ.length - 1) (σ, b)⟩

/-- Filtration `add(birth, simplex)` (spec 4.2): fails with `FaceMissing` if
a codimension-1 face is absent, with `InvalidFiltration` if `birth` is
smaller than the stored birth of a face; otherwise appends.  The state
component of the result is unchanged on failure. -/
def Filtration.add (F : Filtration) (b : ℚ) (σ : Simplex) :
    Filtration × Option Err :=
  if (facets σ).all (fun τ => F.memS τ) then
    if (facets σ).all (fun τ => (F.birthOf τ).getD 0 ≤ b) then (F.push b σ, none)
    else (F, some Err.InvalidFiltration)
  else (F, some Err.FaceMissing)

/-- Filtration `add_recursive(birth, simplex)` (spec 4.2): fails with
`InvalidFiltration` if an existing face (of any dimension) has a stored birth
greater than `birth`; otherwise inserts each missing face, in
increasing-dimension order, at the same birth as the top-level call, and the
simplex itself last.  Stored births of existing faces are left untouched.
The state component of the result is unchanged on failure. -/
def Filtration.addRecursive (F : Filtration) (b : ℚ) (σ : Simplex) :
    Filtration × Option Err :=
  if (List.range σ.length).all (fun d => (chooseLen (d + 1) σ).all
      (fun τ => ((F.birthOf τ).getD b) ≤ b)) then
    ((List.range σ.length).foldl
      (fun G d => (chooseLen (d + 1) σ).foldl
        (fun H τ => if H.memS τ then H else H.push b τ) G) F, none)
  else (F, some Err.InvalidFiltration)

/-- Forget births. -/
def Filtration.complex (F : Filtration) : SimplicialComplex :=
  ⟨F.simps.map (fun l => l.map (fun e => e.1))⟩

/-! ## Sparse columns over the prime field and the reduction pass -/

/-- A boundary-matrix column over `ZMod p`, stored densely: entry `i` is the
coefficient of the row-`i` simplex (rows in filtration order). -/
abbrev Col (p : ℕ) := List (ZMod p)

/-- Entry of a column (zero beyond its length). -/
def ent (p : ℕ) (c : Col p) (i : ℕ) : ZMod p := c.getD i 0

/-- The *low* of a column: the highest-indexed nonzero row, if any. -/
def low? (p : ℕ) : Col p → Option ℕ
  | [] => none
  | a :: t =>
    match low? p t with
    | some l => some (l + 1)
    | none => if a = 0 then none else some 0

/-- Termination measure for the reduction of one column. -/
def lowM (p : ℕ) (c : Col p) : ℕ :=
  (low? p c).elim 0 (fun l => l + 1)

/-- `c - k • d`, entrywise. -/
def subMul (p : ℕ) (c : Col p) (k : ZMod p) (d : Col p) : Col p :=
  (List.range (max c.length d.length)).map (fun i => ent p c i - k * ent p d i)

/-- Multiplicative inverse in the prime field, via Fermat's little theorem
(spec 4.4: all boundary-matrix arithmetic goes through the field interface). -/
def fldInv (p : ℕ) (a : ZMod p) : ZMod p := a ^ (p - 2)


/-- Reduce one column against the already-reduced earlier columns (spec 4.5),
with explicit fuel: while the column is nonzero and its low is claimed by an
earlier column, subtract the multiple of that column which cancels the low
entry.  Over a prime field, each step strictly decreases the low, so fuel
`lowM` suffices (`reduceOne_exit`). -/
def reduceOneF (p : ℕ) (done : List (Col p)) : Nat → Col p → Col p
  | 0, c => c
  | fuel + 1, c =>
    match low? p c with
    | none => c
    | some l =>
      match done.find? (fun d => low? p d == some l) with
      | none => c
      | some ci => reduceOneF p done fuel (subMul p c (ent p c l * fldInv p (ent p ci l)) ci)

/-- Reduce one column to completion. -/
def reduceOne (p : ℕ) (done : List (Col p)) (c : Col p) : Col p :=
  reduceOneF p done (lowM p c) c

/-- Left-to-right reduction: process the remaining columns, carrying the
already-reduced ones in order. -/
def procFrom (p : ℕ) (done : List (Col p)) : List (Col p) → List (Col p)
  | [] => []
  | c :: rest =>
    reduceOne p done c :: procFrom p (done ++ [reduceOne p done c]) rest

/-- The column-reduction pass over a list of columns, in order. -/
def reduceCols (p : ℕ) (cols : List (Col p)) : List (Col p) :=
  procFrom p [] cols

/-- A column is *settled* relative to the earlier columns when it is zero or
its low is claimed by none of them; `reduceOneF` stops exactly there. -/
def Settled (p : ℕ) (done : List (Col p)) (c : Col p) : Prop :=
  ∀ l, low? p c = some l → done.find? (fun d => low? p d == some l) = none


/-- Membership in the linear span of a list of columns (entrywise). -/
def InSpan (p : ℕ) (A : List (Col p)) (v : Col p) : Prop :=
  ∃ f : Nat → ZMod p, ∀ i,
    ent p v i = ∑ r ∈ Finset.range A.length, f r * ent p (A.getD r []) i

/-! ## Boundary matrices and persistence pairs -/

/-- A persistence pair (spec section 3): homology dimension, birth and death
values, birth and death simplex indices.  The infinite death is a dedicated
marker (`none`), not a numeric sentinel. -/
structure PersistencePair where
  dim : Nat
  birth : ℚ
  death : Option ℚ
  birthInd : Nat
  deathInd : Option Nat
  deriving DecidableEq, Repr

/-- Stable insertion by birth value: an element goes after all earlier
elements with a smaller or equal birth. -/
def insertByBirth (e : Simplex × ℚ × Nat) :
    List (Simplex × ℚ × Nat) → List (Simplex × ℚ × Nat)
  | [] => [e]
  | f :: rest => if f.2.1 ≤ e.2.1 then f :: insertByBirth e rest else e :: f :: rest

def sortByBirth (l : List (Simplex × ℚ × Nat)) : List (Simplex × ℚ × Nat) :=
  l.foldl (fun acc e => insertByBirth e acc) []

/-- The `d`-simplices of a filtration in filtration order (birth ascending,
insertion index ascending), each with its birth value and insertion index
(spec 4.2: the per-dimension restriction of `filtration_order()`). -/
def Filtration.sorted (F : Filtration) (d : Nat) : List (Simplex × ℚ × Nat) :=
  sortByBirth ((F.dimList d).enum.map (fun e => (e.2.1, e.2.2, e.1)))

/-- Signed incidence coefficient of `τ` in the boundary of `σ` (spec 4.5):
`(-1)^t` when `τ` is obtained from `σ` by omitting its `t`-th vertex. -/
def bdryEntry (p : ℕ) (σ τ : Simplex) : ZMod p :=
  ∑ t ∈ Finset.range σ.length, if σ.eraseIdx t = τ then (-1) ^ t else 0

/-- The columns of the `d`-th boundary matrix of a filtration: one column per
`d`-simplex in filtration order, rows indexed by the `(d-1)`-simplices in
filtration order.  Vertices have empty boundary. -/
def dCols (p : ℕ) (F : Filtration) : Nat → List (Col p)
  | 0 => (F.sorted 0).map (fun _ => [])
  | d + 1 =>
    (F.sorted (d + 1)).map
      (fun e => (F.sorted d).map (fun r => bdryEntry p e.1 r.1))

/-- The reduced columns of the `d`-th boundary matrix. -/
def rCols (p : ℕ) (F : Filtration) (d : Nat) : List (Col p) :=
  reduceCols p (dCols p F d)

/-- The persistence pairs of homology dimension `d` (spec 4.5): each zero
column of the reduced `d`-th matrix is a birth; it is finite when some
reduced `(d+1)`-column claims its row as a low, with that column's simplex as
the death, and infinite otherwise. -/
def persistencePairs (p : ℕ) (F : Filtration) (d : Nat) : List PersistencePair :=
  (List.range (rCols p F d).length).filterMap (fun l =>
    match low? p ((rCols p F d).getD l []) with
    | some _ => none
    | none =>
      let b := (F.sorted d).getD l ([], 0, 0)
      match (List.range (rCols p F (d + 1)).length).find?
          (fun j => low? p ((rCols p F (d + 1)).getD j []) == some l) with
      | some j =>
        let e := (F.sorted (d + 1)).getD j ([], 0, 0)
        some ⟨d, b.2.1, some e.2.1, b.2.2, some e.2.2⟩
      | none => some ⟨d, b.2.1, none, b.2.2, none⟩)

/-- The quickstart filtration (notebook cells 10-14): triangle `[0,1,2]` at
birth `0` added recursively, edge `[2,3]` at birth `1` added recursively,
edge `[1,3]` at birth `2` added plainly. -/
def quickstartFiltration : Filtration :=
  (((Filtration.empty.addRecursive 0 [0, 1, 2]).1.addRecursive 1 [2, 3]).1.add
    2 [1, 3]).1

/-- A well-formed filtration: in every populated dimension the stored vertex
tuples are pairwise distinct, and (from dimension 1 up) every codimension-1
face of a stored simplex is stored one dimension lower. -/
def WFFiltration (F : Filtration) : Prop :=
  ∀ k, k < F.simps.length →
    ((F.dimList k).map (fun e => e.1)).Nodup ∧
    (1 ≤ k → ∀ e ∈ F.dimList k, ∀ t, t < e.1.length →
      e.1.eraseIdx t ∈ (F.dimList (k - 1)).map (fun e2 => e2.1))

instance (F : Filtration) : Decidable (WFFiltration F) := by
  unfold WFFiltration
  infer_instance

/-! ## The Rips builder -/

/-- Largest element of a list of rationals, at least `0`. -/
def listMax (l : List ℚ) : ℚ := l.foldr max 0

/-- All position-ordered pairwise distances within a vertex tuple. -/
def pairList (D : Nat → Nat → ℚ) : List Nat → List ℚ
  | [] => []
  | v :: rest => rest.map (fun u => D v u) ++ pairList D rest

/-- Maximum pairwise distance among the vertices of a simplex (zero for a
vertex). -/
def maxPairwise (D : Nat → Nat → ℚ) (σ : List Nat) : ℚ := listMax (pairList D σ)

/-- Comparison against the radius bound; `none` encodes `+∞`. -/
def leR (x : ℚ) (rmax : Option ℚ) : Bool :=
  match rmax with
  | none => true
  | some r => decide (x ≤ r)

/-- Modelled from the spec (4.3, clique expansion bounded by radius; the C++
implementation is not in the sources): level `0` holds every vertex at birth
`0`; level `d+1` extends each level-`d` simplex `σ` by every vertex `v`
within `rmax` of all of `σ`, at birth `max (birth σ) (max of the new
distances)`.  Duplicate vertex sets are avoided canonically by extending only
with vertices larger than all of `σ`, so each simplex is the sorted tuple of
its vertex set. -/
def ripsLevel (n : Nat) (D : Nat → Nat → ℚ) (rmax : Option ℚ) :
    Nat → List (Simplex × ℚ)
  | 0 => (List.range n).map (fun i => ([i], 0))
  | d + 1 =>
    ((ripsLevel n D rmax d).map (fun e =>
      ((List.range n).filter (fun v =>
          e.1.all (fun u => decide (u < v) && leR (D u v) rmax))).map
        (fun v => (e.1 ++ [v], max e.2 (listMax (e.1.map (fun u => D u v))))))).flatten

/-- Modelled from the spec (4.3): the Rips filtration on `n` points with
distance matrix `D`, radius bound `rmax` and dimension bound `k`. -/
def ripsFiltration (n : Nat) (D : Nat → Nat → ℚ) (rmax : Option ℚ) (k : Nat) :
    Filtration :=
  ⟨(List.range (k + 1)).map (ripsLevel n D rmax)⟩

/-- A radius-bounded clique on vertices below `n`, as a sorted tuple. -/
def IsClique (n : Nat) (D : Nat → Nat → ℚ) (rmax : Option ℚ)
    (σ : List Nat) : Prop :=
  (∀ v ∈ σ, v < n) ∧ σ.Pairwise (· < ·) ∧
    σ.Pairwise (fun u v => leR (D u v) rmax = true)

/-! ## Greedy landmark selection -/

/-- Maximum of `near` over the first `n` point indices (the covering radius
of the selected landmarks). -/
def maxOver (n : Nat) (near : Nat → ℚ) : ℚ :=
  listMax ((List.range n).map near)

/-- The unselected index with the largest `near` value, ties broken by the
smallest index. -/
def argmaxUnsel (n : Nat) (near : Nat → ℚ) (sel : List Nat) : Nat :=
  let cands := (List.range n).filter (fun i => !sel.contains i)
  cands.foldl (fun best i => if near best < near i then i else best) (cands.headD 0)

/-- One landmark step (spec 4.6): record the covering radius, pick the
farthest unselected point, and shrink `near` by the distances to it. -/
def glStep (n : Nat) (D : Nat → Nat → ℚ) :
    List Nat × (Nat → ℚ) × List ℚ → List Nat × (Nat → ℚ) × List ℚ
  | (sel, near, ds) =>
    (sel ++ [argmaxUnsel n near sel],
      fun j => min (near j) (D (argmaxUnsel n near sel) j),
      ds ++ [maxOver n near])

def glIter (n : Nat) (D : Nat → Nat → ℚ) :
    Nat → List Nat × (Nat → ℚ) × List ℚ → List Nat × (Nat → ℚ) × List ℚ
  | 0, st => st
  | m + 1, st => glStep n D (glIter n D m st)

/-- Modelled from the spec (4.6, farthest-point / MaxMin sampling; the C++
implementation is not in the sources): starting from the seed, repeat `n-1`
times — record the covering radius, pick the farthest not-yet-selected point
(smallest index on ties, so that the output is a permutation), update the
nearest-landmark distances — then append the final Hausdorff distance `0`.
The distance sequence opens with the seed's covering radius so that its
length is `n + 1` with `dists[k]` the Hausdorff distance of the first `k`
landmarks for `1 ≤ k ≤ n`.  Fails with `InvalidSeed` on an out-of-range
seed. -/
def greedy_landmarks_hausdorff (n : Nat) (D : Nat → Nat → ℚ) (s : Nat) :
    Except Err (List Nat × List ℚ) :=
  if s < n then
    let st := glIter n D (n - 1)
      ([s], fun j => D s j, [maxOver n (fun j => D s j)])
    .ok (st.1, st.2.2 ++ [0])
  else .error Err.InvalidSeed

/-! ## The capacity-bounded complex -/

/-- Fixed-radix code of a vertex tuple with vertex identifiers below `n`:
digit `v+1` in base `n+2`.  Injective on tuples of bounded vertices. -/
def encodeS (n : Nat) (σ : List Nat) : Nat :=
  σ.foldl (fun a v => a * (n + 2) + (v + 1)) 0

/-- Decode a fixed-radix simplex code back to its vertex tuple. -/
def decodeS (n : Nat) : Nat → List Nat
  | 0 => []
  | c + 1 => decodeS n ((c + 1) / (n + 2)) ++ [(c + 1) % (n + 2) - 1]
decreasing_by exact Nat.div_lt_self (by omega) (by omega)

/-- Modelled from the spec (sections 2 and 9: the capacity-bounded storage
strategy behind `LightSimplicialComplex`; the C++ implementation is not in
the sources): created with an upper bound `n` on the number of vertices and
`d` on the simplex dimension, and within those bounds each simplex tuple is
stored as a single fixed-radix code per dimension. -/
structure LightSimplicialComplex where
  n : Nat
  d : Nat
  codes : List (List Nat)
  deriving DecidableEq, Repr

def LightSimplicialComplex.empty (n d : Nat) : LightSimplicialComplex :=
  ⟨n, d, []⟩

def LightSimplicialComplex.dimCodes (L : LightSimplicialComplex) (k : Nat) :
    List Nat :=
  L.codes.getD k []

def LightSimplicialComplex.memS (L : LightSimplicialComplex) (σ : Simplex) :
    Bool :=
  (L.dimCodes (σ.length - 1)).contains (encodeS L.n σ)

def LightSimplicialComplex.push (L : LightSimplicialComplex) (σ : Simplex) :
    LightSimplicialComplex :=
  ⟨L.n, L.d, appendAt L.codes (σ.length - 1) (encodeS L.n σ)⟩

/-- `add` on the capacity-bounded complex: same contract as
`SimplicialComplex.add`. -/
def LightSimplicialComplex.add (L : LightSimplicialComplex) (σ : Simplex) :
    LightSimplicialComplex × Option Err :=
  if (facets σ).all (fun τ => L.memS τ) then (L.push σ, none)
  else (L, some Err.FaceMissing)

/-- `add_recursive` on the capacity-bounded complex: same contract as
`SimplicialComplex.addRecursive`. -/
def LightSimplicialComplex.addRecursive (L : LightSimplicialComplex)
    (σ : Simplex) : LightSimplicialComplex :=
  (List.range σ.length).foldl
    (fun Y dd => (chooseLen (dd + 1) σ).foldl
      (fun Z τ => if Z.memS τ then Z else Z.push τ) Y) L

/-- Decode the stored complex. -/
def LightSimplicialComplex.toComplex (L : LightSimplicialComplex) :
    SimplicialComplex :=
  ⟨L.codes.map (fun l => l.map (decodeS L.n))⟩

/-- `get_simplices()` on the capacity-bounded complex. -/
def LightSimplicialComplex.getSimplices (L : LightSimplicialComplex) :
    List Simplex :=
  L.toComplex.getSimplices

/-- An interface operation on a complex (the common `add`/`add_recursive`
contract of the two storage strategies). -/
inductive Op where
  | add (σ : Simplex)
  | addRec (σ : Simplex)
  deriving DecidableEq, Repr

def Op.simplex : Op → Simplex
  | .add σ => σ
  | .addRec σ => σ

def runOps (X : SimplicialComplex) : List Op → SimplicialComplex
  | [] => X
  | .add σ :: rest => runOps (X.add σ).1 rest
  | .addRec σ :: rest => runOps (X.addRecursive σ) rest

def runOpsL (L : LightSimplicialComplex) : List Op → LightSimplicialComplex
  | [] => L
  | .add σ :: rest => runOpsL (L.add σ).1 rest
  | .addRec σ :: rest => runOpsL (L.addRecursive σ) rest

/-- The simulation relation between the two storage strategies: same
capacity parameters, codes are the encoded simplices, and everything stored
is within the vertex bound. -/
def LightRel (n d : Nat) (X : SimplicialComplex) (L : LightSimplicialComplex) :
    Prop :=
  L.n = n ∧ L.d = d ∧ L.codes = X.simps.map (fun l => l.map (encodeS n)) ∧
    ∀ k, ∀ σ ∈ X.simps.getD k [], ∀ v ∈ σ, v < n

/-- A bare complex as a filtration with all births at the same value `0`
(spec section 2: the non-persistent case). -/
def SimplicialComplex.toFiltration (X : SimplicialComplex) : Filtration :=
  ⟨X.simps.map (fun l => l.map (fun σ => (σ, 0)))⟩

/-- The homology dimension over `ZMod p` in degree `k`: zero columns of the
reduced `k`-th boundary matrix minus nonzero columns of the reduced
`(k+1)`-st. -/
def hdim (p : ℕ) (X : SimplicialComplex) (k : Nat) : Nat :=
  (rCols p X.toFiltration k).countP (fun c => low? p c == none)
    - (rCols p X.toFiltration (k + 1)).countP (fun c => !(low? p c == none))

/-! ## Theorems about the column algebra and the reduction pass -/

theorem getD_padTo (L : List (List α)) (n d : Nat) :
    (padTo L n).getD d [] = L.getD d [] := by
  unfold padTo
  by_cases h : d < L.length
  · rw [List.getD_append _ _ _ _ h]
  · push_neg at h
    rw [List.getD_eq_default _ _ h]
    by_cases h2 : d < (L ++ List.replicate (n - L.length) ([] : List α)).length
    · rw [List.getD_eq_getElem _ _ h2,
        List.getElem_append_right (by omega), List.getElem_replicate]
    · push_neg at h2
      rw [List.getD_eq_default _ _ h2]

theorem length_padTo (L : List (List α)) (n : Nat) :
    (padTo L n).length = max n L.length := by
  simp [padTo]
  omega

theorem getD_appendAt_self (L : List (List α)) (d : Nat) (a : α) :
    (appendAt L d a).getD d [] = L.getD d [] ++ [a] := by
  have hd : d < (padTo L (d + 1)).length := by rw [length_padTo]; omega
  rw [appendAt, List.getD_eq_getElem _ _ (by rw [List.length_set]; exact hd),
    List.getElem_set_self, getD_padTo]

theorem getD_appendAt_ne (L : List (List α)) (d d' : Nat) (a : α) (h : d' ≠ d) :
    (appendAt L d a).getD d' [] = L.getD d' [] := by
  by_cases h2 : d' < (padTo L (d + 1)).length
  · rw [appendAt, List.getD_eq_getElem _ _ (by rw [List.length_set]; exact h2),
      List.getElem_set_ne (by omega), ← List.getD_eq_getElem _ _ h2, getD_padTo]
  · push_neg at h2
    rw [appendAt, List.getD_eq_default _ _ (by rw [List.length_set]; exact h2)]
    rw [length_padTo] at h2
    rw [List.getD_eq_default _ _ (by omega)]

/-! ### Subtuple enumeration -/

theorem sublist_of_mem_chooseLen (τ l : List α) (n : Nat)
    (h : τ ∈ chooseLen n l) : τ.Sublist l ∧ τ.length = n := by
  induction l generalizing τ n with
  | nil =>
    cases n with
    | zero => simp [chooseLen] at h; simp [h]
    | succ m => simp [chooseLen] at h
  | cons a l ih =>
    cases n with
    | zero =>
      simp [chooseLen] at h
      simp [h]
    | succ m =>
      rw [chooseLen, List.mem_append] at h
      rcases h with h | h
      · obtain ⟨t, ht, rfl⟩ := List.mem_map.mp h
        obtain ⟨h1, h2⟩ := ih t m ht
        exact ⟨List.Sublist.cons₂ a h1, by simp [h2]⟩
      · obtain ⟨h1, h2⟩ := ih τ (m + 1) h
        exact ⟨h1.cons a, h2⟩

theorem mem_chooseLen_of_sublist (τ l : List α) (h : τ.Sublist l) :
    τ ∈ chooseLen τ.length l := by
  induction h with
  | slnil => simp [chooseLen]
  | @cons t l' a hs ih =>
    cases ht : t with
    | nil => simp [chooseLen]
    | cons x xs =>
      rw [ht] at ih
      rw [List.length_cons, chooseLen, List.mem_append]
      exact Or.inr ih
  | @cons₂ t l' a hs ih =>
    rw [List.length_cons, chooseLen, List.mem_append]
    exact Or.inl (List.mem_map.mpr ⟨t, ih, rfl⟩)

theorem ent_nil (p : ℕ) (i : ℕ) : ent p [] i = 0 := by
  simp [ent]

theorem ent_cons_zero (p : ℕ) (a : ZMod p) (t : Col p) : ent p (a :: t) 0 = a := rfl

theorem ent_cons_succ (p : ℕ) (a : ZMod p) (t : Col p) (i : ℕ) :
    ent p (a :: t) (i + 1) = ent p t i := rfl

theorem ent_eq_zero_of_len_le (p : ℕ) (c : Col p) (i : ℕ) (h : c.length ≤ i) :
    ent p c i = 0 := by
  rw [ent, List.getD_eq_default _ _ h]

theorem ent_subMul (p : ℕ) (c : Col p) (k : ZMod p) (d : Col p) (i : ℕ) :
    ent p (subMul p c k d) i = ent p c i - k * ent p d i := by
  by_cases h : i < max c.length d.length
  · have hi : i < ((List.range (max c.length d.length)).map
        (fun i => ent p c i - k * ent p d i)).length := by simpa using h
    rw [subMul, ent, List.getD_eq_getElem _ _ hi]
    simp
  · push_neg at h
    rw [ent_eq_zero_of_len_le p _ i (by simp [subMul]; omega),
      ent_eq_zero_of_len_le p c i (by omega),
      ent_eq_zero_of_len_le p d i (by omega)]
    ring

theorem length_subMul (p : ℕ) (c : Col p) (k : ZMod p) (d : Col p) :
    (subMul p c k d).length = max c.length d.length := by
  simp [subMul]

/-- At the low, the entry is nonzero. -/
theorem ent_low_ne_zero (p : ℕ) (c : Col p) (l : ℕ) (h : low? p c = some l) :
    ent p c l ≠ 0 := by
  induction c generalizing l with
  | nil => simp [low?] at h
  | cons a t ih =>
    rw [low?] at h
    cases hl : low? p t with
    | some l' =>
      rw [hl] at h
      cases h
      simpa [ent_cons_succ] using ih l' hl
    | none =>
      rw [hl] at h
      by_cases ha : a = 0
      · simp [ha] at h
      · simp [ha] at h
        simpa [← h, ent_cons_zero] using ha

/-- A column whose low is `none` vanishes everywhere. -/
theorem ent_eq_zero_of_low_none (p : ℕ) (c : Col p) (h : low? p c = none) (i : ℕ) :
    ent p c i = 0 := by
  induction c generalizing i with
  | nil => simp [ent]
  | cons a t ih =>
    rw [low?] at h
    cases hl : low? p t with
    | some l' => simp [hl] at h
    | none =>
      rw [hl] at h
      by_cases ha : a = 0
      · cases i with
        | zero => simpa [ent_cons_zero] using ha
        | succ j => rw [ent_cons_succ]; exact ih hl j
      · simp [ha] at h

/-- Above the low, entries vanish. -/
theorem ent_eq_zero_of_low_lt (p : ℕ) (c : Col p) (l : ℕ) (h : low? p c = some l)
    (i : ℕ) (hi : l < i) : ent p c i = 0 := by
  induction c generalizing l i with
  | nil => simp [low?] at h
  | cons a t ih =>
    rw [low?] at h
    cases hl : low? p t with
    | some l' =>
      rw [hl] at h
      cases h
      obtain ⟨j, rfl⟩ : ∃ j, i = j + 1 := ⟨i - 1, by omega⟩
      rw [ent_cons_succ]
      exact ih l' hl j (by omega)
    | none =>
      rw [hl] at h
      by_cases ha : a = 0
      · simp [ha] at h
      · simp [ha] at h
        obtain ⟨j, rfl⟩ : ∃ j, i = j + 1 := ⟨i - 1, by omega⟩
        rw [ent_cons_succ]
        exact ent_eq_zero_of_low_none p t hl j

/-- Conversely, a column vanishing everywhere has low `none`. -/
theorem low_none_of_ent_eq_zero (p : ℕ) (c : Col p) (h : ∀ i, ent p c i = 0) :
    low? p c = none := by
  cases hl : low? p c with
  | none => rfl
  | some l => exact absurd (h l) (ent_low_ne_zero p c l hl)

theorem low_lt_length (p : ℕ) (c : Col p) (l : ℕ) (h : low? p c = some l) :
    l < c.length := by
  by_contra hc
  exact ent_low_ne_zero p c l h (ent_eq_zero_of_len_le p c l (by omega))

/-- If all entries from `l` on vanish, the low measure is at most `l`. -/
theorem lowM_le_of_tail_zero (p : ℕ) (c : Col p) (l : ℕ)
    (h : ∀ i, l ≤ i → ent p c i = 0) : lowM p c ≤ l := by
  unfold lowM
  cases hl : low? p c with
  | none => simp
  | some l' =>
    have h1 := ent_low_ne_zero p c l' hl
    by_cases hll : l ≤ l'
    · exact absurd (h l' hll) h1
    · simp [Option.elim]
      omega

/-- Fermat inverse: for nonzero `a` in the prime field, `fldInv a * a = 1`. -/
theorem fldInv_mul_cancel (p : ℕ) [Fact p.Prime] (a : ZMod p) (h : a ≠ 0) :
    fldInv p a * a = 1 := by
  have hp : 2 ≤ p := (Fact.out : p.Prime).two_le
  rw [fldInv, ← pow_succ]
  have h2 : p - 2 + 1 = p - 1 := by omega
  rw [h2]
  exact ZMod.pow_card_sub_one_eq_one h

/-- One step of the decrease argument: cancelling the shared low strictly
decreases the low measure. -/
theorem lowM_sub_lt (p : ℕ) [Fact p.Prime] (c ci : Col p) (l : ℕ)
    (hc : low? p c = some l) (hci : low? p ci = some l) :
    lowM p (subMul p c (ent p c l * fldInv p (ent p ci l)) ci) < lowM p c := by
  have hci0 : ent p ci l ≠ 0 := ent_low_ne_zero p ci l hci
  have hcancel : ∀ i, l ≤ i →
      ent p (subMul p c (ent p c l * fldInv p (ent p ci l)) ci) i = 0 := by
    intro i hi
    rw [ent_subMul]
    rcases eq_or_lt_of_le hi with rfl | hlt
    · rw [mul_assoc, fldInv_mul_cancel p _ hci0, mul_one, sub_self]
    · rw [ent_eq_zero_of_low_lt p c l hc i hlt,
        ent_eq_zero_of_low_lt p ci l hci i hlt]
      ring
  have h1 := lowM_le_of_tail_zero p _ l hcancel
  have h2 : lowM p c = l + 1 := by unfold lowM; rw [hc]; rfl
  omega
/-! ### Insertion into a complex -/

theorem dimList_push_self (X : SimplicialComplex) (σ : Simplex) :
    (X.push σ).dimList (σ.length - 1) = X.dimList (σ.length - 1) ++ [σ] :=
  getD_appendAt_self X.simps (σ.length - 1) σ

theorem dimList_push_ne (X : SimplicialComplex) (σ : Simplex) (d : Nat)
    (h : d ≠ σ.length - 1) : (X.push σ).dimList d = X.dimList d :=
  getD_appendAt_ne X.simps (σ.length - 1) d σ h

theorem memS_push_self (X : SimplicialComplex) (σ : Simplex) :
    (X.push σ).memS σ = true := by
  rw [SimplicialComplex.memS, decide_eq_true_iff, SimplicialComplex.push]
  show σ ∈ (appendAt X.simps (σ.length - 1) σ).getD (σ.length - 1) []
  rw [getD_appendAt_self]
  simp

theorem memS_push_mono (X : SimplicialComplex) (ρ τ : Simplex)
    (h : X.memS τ = true) : (X.push ρ).memS τ = true := by
  rw [SimplicialComplex.memS, decide_eq_true_iff] at h ⊢
  show τ ∈ (appendAt X.simps (ρ.length - 1) ρ).getD (τ.length - 1) []
  by_cases hd : τ.length - 1 = ρ.length - 1
  · rw [hd, getD_appendAt_self]
    exact List.mem_append.mpr (Or.inl (by rw [← hd]; exact h))
  · rw [getD_appendAt_ne _ _ _ _ hd]
    exact h

/-- After folding the insert-if-absent step over a list, every element of the
list (and everything previously present) is present. -/
theorem innerFold_mem (L : List Simplex) (X : SimplicialComplex) (τ : Simplex)
    (h : τ ∈ L ∨ X.memS τ = true) :
    ((L.foldl (fun Z ρ => if Z.memS ρ then Z else Z.push ρ) X).memS τ) = true := by
  induction L generalizing X with
  | nil =>
    rcases h with h | h
    · cases h
    · exact h
  | cons ρ L ih =>
    rw [List.foldl_cons]
    rcases h with h | h
    · rcases List.mem_cons.mp h with rfl | h2
      · apply ih
        right
        cases hx : X.memS τ
        · simp only [hx, Bool.false_eq_true, if_false]
          exact memS_push_self X τ
        · simp only [hx, if_true]
      · exact ih _ (Or.inl h2)
    · apply ih
      right
      cases hx : X.memS ρ
      · simp only [hx, Bool.false_eq_true, if_false]
        exact memS_push_mono X ρ τ h
      · simp only [hx, if_true]
        exact h

/-- Folding insertions over the listed dimensions: every subtuple enumerated
at one of them ends up present, and presence is preserved. -/
theorem outerFold_mem (σ : Simplex) (ds : List Nat) (X : SimplicialComplex)
    (τ : Simplex)
    (h : (∃ d ∈ ds, τ ∈ chooseLen (d + 1) σ) ∨ X.memS τ = true) :
    ((ds.foldl (fun Y d => (chooseLen (d + 1) σ).foldl
      (fun Z ρ => if Z.memS ρ then Z else Z.push ρ) Y) X).memS τ) = true := by
  induction ds generalizing X with
  | nil =>
    rcases h with ⟨d, hd, _⟩ | h
    · cases hd
    · exact h
  | cons d ds ih =>
    rw [List.foldl_cons]
    rcases h with ⟨d', hd', hτ⟩ | h
    · rcases List.mem_cons.mp hd' with rfl | h2
      · exact ih _ (Or.inr (innerFold_mem _ X τ (Or.inl hτ)))
      · exact ih _ (Or.inl ⟨d', h2, hτ⟩)
    · exact ih _ (Or.inr (innerFold_mem _ X τ (Or.inr h)))

/-- After `add_recursive`, every nonempty subtuple of the simplex is present. -/
theorem addRecursive_mem (X : SimplicialComplex) (σ τ : Simplex)
    (hs : τ.Sublist σ) (hne : τ ≠ []) : (X.addRecursive σ).memS τ = true := by
  have hlen : 1 ≤ τ.length := by
    cases τ with
    | nil => exact absurd rfl hne
    | cons a t => simp
  have hlt : τ.length - 1 < σ.length := by
    have := hs.length_le
    omega
  apply outerFold_mem
  left
  refine ⟨τ.length - 1, List.mem_range.mpr hlt, ?_⟩
  have : τ.length - 1 + 1 = τ.length := by omega
  rw [this]
  exact mem_chooseLen_of_sublist τ σ hs

/-- Inserting when everything is already present changes nothing. -/
theorem innerFold_noop (L : List Simplex) (X : SimplicialComplex)
    (h : ∀ ρ ∈ L, X.memS ρ = true) :
    L.foldl (fun Z ρ => if Z.memS ρ then Z else Z.push ρ) X = X := by
  induction L with
  | nil => rfl
  | cons ρ L ih =>
    rw [List.foldl_cons]
    rw [h ρ (List.mem_cons_self ρ L)]
    simp only [if_true]
    exact ih (fun ρ' hρ' => h ρ' (List.mem_cons_of_mem ρ hρ'))

theorem outerFold_noop (σ : Simplex) (ds : List Nat) (X : SimplicialComplex)
    (h : ∀ d ∈ ds, ∀ ρ ∈ chooseLen (d + 1) σ, X.memS ρ = true) :
    ds.foldl (fun Y d => (chooseLen (d + 1) σ).foldl
      (fun Z ρ => if Z.memS ρ then Z else Z.push ρ) Y) X = X := by
  induction ds with
  | nil => rfl
  | cons d ds ih =>
    rw [List.foldl_cons, innerFold_noop _ X (h d (List.mem_cons_self d ds))]
    exact ih (fun d' hd' => h d' (List.mem_cons_of_mem d hd'))

/-- `add_recursive` is the identity when the simplex and all its faces are
already present: lookup identifies simplices by their ordered tuple. -/
theorem addRecursive_of_present (X : SimplicialComplex) (σ : Simplex)
    (h : ∀ d ∈ List.range σ.length, ∀ ρ ∈ chooseLen (d + 1) σ, X.memS ρ = true) :
    X.addRecursive σ = X :=
  outerFold_noop σ (List.range σ.length) X h

/-- A settled column is a fixed point of one reduction step. -/
theorem reduceOneF_eq_self (p : ℕ) (done : List (Col p)) (fuel : ℕ) (c : Col p)
    (h : Settled p done c) : reduceOneF p done fuel c = c := by
  cases fuel with
  | zero => rfl
  | succ f =>
    rw [reduceOneF]
    split
    · rfl
    · rename_i l hl
      rw [h l hl]

/-- With fuel exceeding the low measure, the output of one column reduction
is settled. -/
theorem reduceOneF_settled (p : ℕ) [Fact p.Prime] (done : List (Col p))
    (fuel : ℕ) (c : Col p) (hf : lowM p c ≤ fuel) :
    Settled p done (reduceOneF p done fuel c) := by
  induction fuel generalizing c with
  | zero =>
    intro l hl
    have hl' : low? p c = some l := hl
    have : lowM p c = l + 1 := by unfold lowM; rw [hl']; rfl
    omega
  | succ f ih =>
    rw [reduceOneF]
    split
    · rename_i hl
      intro l' hl'
      rw [hl] at hl'
      cases hl'
    · rename_i l hl
      split
      · rename_i hfind
        intro l' hl'
        rw [hl] at hl'
        cases hl'
        exact hfind
      · rename_i ci hfind
        apply ih
        have hci : low? p ci = some l := by
          have := List.find?_some hfind
          simpa using this
        have hlt := lowM_sub_lt p c ci l hl hci
        have : lowM p c = l + 1 := by unfold lowM; rw [hl]; rfl
        omega

/-- The output of `reduceOne` is settled relative to the earlier columns. -/
theorem reduceOne_settled (p : ℕ) [Fact p.Prime] (done : List (Col p))
    (c : Col p) : Settled p done (reduceOne p done c) :=
  reduceOneF_settled p done (lowM p c) c le_rfl

theorem reduceOne_eq_self (p : ℕ) (done : List (Col p)) (c : Col p)
    (h : Settled p done c) : reduceOne p done c = c :=
  reduceOneF_eq_self p done (lowM p c) c h

/-- Re-running the reduction pass on its own output changes nothing. -/
theorem procFrom_idem (p : ℕ) [Fact p.Prime] (rest : List (Col p)) :
    ∀ done, procFrom p done (procFrom p done rest) = procFrom p done rest := by
  induction rest with
  | nil => intro done; rfl
  | cons c r ih =>
    intro done
    conv_lhs => rw [procFrom, procFrom]
    rw [reduceOne_eq_self p done (reduceOne p done c) (reduceOne_settled p done c),
      ih (done ++ [reduceOne p done c])]
    conv_rhs => rw [procFrom]

/-! ### The Rips builder satisfies monotonicity -/

theorem listMax_nil : listMax [] = 0 := rfl

theorem listMax_cons (x : ℚ) (l : List ℚ) : listMax (x :: l) = max x (listMax l) := rfl

theorem listMax_nonneg (l : List ℚ) : 0 ≤ listMax l := by
  induction l with
  | nil => exact le_refl 0
  | cons x l ih => exact le_trans ih (le_max_right x (listMax l))

theorem le_listMax_of_mem (x : ℚ) (l : List ℚ) (h : x ∈ l) : x ≤ listMax l := by
  induction l with
  | nil => cases h
  | cons y l ih =>
    rcases List.mem_cons.mp h with rfl | h2
    · exact le_max_left x (listMax l)
    · exact le_trans (ih h2) (le_max_right y (listMax l))

theorem listMax_le (m : ℚ) (l : List ℚ) (hm : 0 ≤ m) (h : ∀ x ∈ l, x ≤ m) :
    listMax l ≤ m := by
  induction l with
  | nil => exact hm
  | cons y l ih =>
    exact max_le (h y (List.mem_cons_self y l))
      (ih (fun x hx => h x (List.mem_cons_of_mem y hx)))

theorem listMax_append (l1 l2 : List ℚ) :
    listMax (l1 ++ l2) = max (listMax l1) (listMax l2) := by
  induction l1 with
  | nil => rw [List.nil_append, listMax_nil, max_eq_right (listMax_nonneg l2)]
  | cons x l ih =>
    rw [List.cons_append, listMax_cons, listMax_cons, ih, max_assoc]

/-- Every pairwise distance within a subtuple is a pairwise distance of the
containing tuple. -/
theorem mem_pairList_of_sublist (D : Nat → Nat → ℚ) (τ σ : List Nat)
    (hs : τ.Sublist σ) : ∀ x ∈ pairList D τ, x ∈ pairList D σ := by
  induction hs with
  | slnil => intro x hx; cases hx
  | @cons t l a h ih =>
    intro x hx
    rw [pairList, List.mem_append]
    exact Or.inr (ih x hx)
  | @cons₂ t l a h ih =>
    intro x hx
    rw [pairList, List.mem_append] at hx ⊢
    rcases hx with hx | hx
    · obtain ⟨u, hu, rfl⟩ := List.mem_map.mp hx
      exact Or.inl (List.mem_map.mpr ⟨u, h.mem hu, rfl⟩)
    · exact Or.inr (ih x hx)

theorem maxPairwise_sublist_le (D : Nat → Nat → ℚ) (τ σ : List Nat)
    (hs : τ.Sublist σ) : maxPairwise D τ ≤ maxPairwise D σ :=
  listMax_le _ _ (listMax_nonneg _)
    (fun x hx => le_listMax_of_mem x _ (mem_pairList_of_sublist D τ σ hs x hx))

/-- Appending a vertex: the maximum pairwise distance grows by exactly the
distances to the new vertex. -/
theorem listMax_perm (l1 l2 : List ℚ) (h : l1.Perm l2) :
    listMax l1 = listMax l2 := by
  induction h with
  | nil => rfl
  | cons x h ih => rw [listMax_cons, listMax_cons, ih]
  | swap x y l =>
    rw [listMax_cons, listMax_cons, listMax_cons, listMax_cons, max_left_comm]
  | trans h1 h2 ih1 ih2 => rw [ih1, ih2]

/-- The pair distances of `σ ++ [v]` are, up to order, those of `σ` together
with the distances from `σ` to `v`. -/
theorem pairList_snoc_perm (D : Nat → Nat → ℚ) (σ : List Nat) (v : Nat) :
    (pairList D (σ ++ [v])).Perm
      (pairList D σ ++ σ.map (fun u => D u v)) := by
  induction σ with
  | nil => simp [pairList]
  | cons u σ ih =>
    rw [List.cons_append, pairList, pairList, List.map_append,
      List.map_singleton, List.map_cons]
    refine (List.Perm.append_left _ ih).trans ?_
    have h1 : (List.map (fun w => D u w) σ ++ [D u v])
        ++ (pairList D σ ++ List.map (fun w => D w v) σ)
        = List.map (fun w => D u w) σ
          ++ (([D u v] ++ pairList D σ) ++ List.map (fun w => D w v) σ) := by
      simp [List.append_assoc]
    have h2 : (List.map (fun w => D u w) σ ++ pairList D σ)
        ++ (D u v :: List.map (fun w => D w v) σ)
        = List.map (fun w => D u w) σ
          ++ ((pairList D σ ++ [D u v]) ++ List.map (fun w => D w v) σ) := by
      simp [List.append_assoc]
    rw [h1, h2]
    exact List.Perm.append_left _
      (List.Perm.append_right _ List.perm_append_comm)

/-- Appending a vertex: the maximum pairwise distance grows by exactly the
distances to the new vertex. -/
theorem maxPairwise_snoc (D : Nat → Nat → ℚ) (σ : List Nat) (v : Nat) :
    maxPairwise D (σ ++ [v])
      = max (maxPairwise D σ) (listMax (σ.map (fun u => D u v))) := by
  rw [maxPairwise, maxPairwise,
    listMax_perm _ _ (pairList_snoc_perm D σ v), listMax_append]


/-- Level `d` of the Rips construction holds exactly the radius-bounded
cliques of `d+1` vertices (as sorted tuples), each at birth equal to its
maximum pairwise distance. -/
theorem mem_ripsLevel (n : Nat) (D : Nat → Nat → ℚ) (rmax : Option ℚ) (d : Nat)
    (σ : Simplex) (b : ℚ) :
    (σ, b) ∈ ripsLevel n D rmax d ↔
      σ.length = d + 1 ∧ IsClique n D rmax σ ∧ b = maxPairwise D σ := by
  induction d generalizing σ b with
  | zero =>
    rw [ripsLevel]
    constructor
    · intro h
      obtain ⟨i, hi, he⟩ := List.mem_map.mp h
      cases he
      refine ⟨rfl, ⟨?_, ?_, ?_⟩, ?_⟩
      · intro v hv
        rcases List.mem_singleton.mp hv with rfl
        exact List.mem_range.mp hi
      · simp
      · simp
      · simp [maxPairwise, pairList, listMax]
    · rintro ⟨hlen, ⟨hbound, _, _⟩, hb⟩
      obtain ⟨v, rfl⟩ : ∃ v, σ = [v] := by
        cases σ with
        | nil => simp at hlen
        | cons a t =>
          cases t with
          | nil => exact ⟨a, rfl⟩
          | cons c t' => simp at hlen
      have hb0 : b = 0 := by simpa [maxPairwise, pairList, listMax] using hb
      subst hb0
      exact List.mem_map.mpr ⟨v, List.mem_range.mpr (hbound v (by simp)), rfl⟩
  | succ d ih =>
    rw [ripsLevel]
    constructor
    · intro h
      rw [List.mem_flatten] at h
      obtain ⟨L, hL, hmem⟩ := h
      obtain ⟨e, he, rfl⟩ := List.mem_map.mp hL
      obtain ⟨v, hv, heq⟩ := List.mem_map.mp hmem
      obtain ⟨hvr, hvp⟩ := List.mem_filter.mp hv
      have hvn : v < n := List.mem_range.mp hvr
      have hall : ∀ u ∈ e.1, u < v ∧ leR (D u v) rmax = true := by
        intro u hu
        have := List.all_eq_true.mp hvp u hu
        rw [Bool.and_eq_true, decide_eq_true_iff] at this
        exact this
      obtain ⟨hlen_e, ⟨hbnd, hsort, hrOK⟩, hb_e⟩ := ih e.1 e.2 |>.mp he
      cases heq
      refine ⟨by simp [hlen_e], ⟨?_, ?_, ?_⟩, ?_⟩
      · intro w hw
        rcases List.mem_append.mp hw with hw | hw
        · exact hbnd w hw
        · rcases List.mem_singleton.mp hw with rfl; exact hvn
      · rw [List.pairwise_append]
        exact ⟨hsort, List.pairwise_singleton _ v, fun a ha w hw => by
          rcases List.mem_singleton.mp hw with rfl
          exact (hall a ha).1⟩
      · rw [List.pairwise_append]
        exact ⟨hrOK, List.pairwise_singleton _ v, fun a ha w hw => by
          rcases List.mem_singleton.mp hw with rfl
          exact (hall a ha).2⟩
      · rw [maxPairwise_snoc, hb_e]
    · rintro ⟨hlen, ⟨hbnd, hsort, hrOK⟩, hb⟩
      have hne : σ ≠ [] := by
        intro h0
        rw [h0] at hlen
        simp at hlen
      have hsplit := List.dropLast_append_getLast hne
      set τ := σ.dropLast with hτ
      set v := σ.getLast hne with hv
      have hlτ : τ.length = d + 1 := by
        have h1 : τ.length = σ.length - 1 := by
          rw [hτ]
          exact List.length_dropLast σ
        omega
      have hsortτ : τ.Pairwise (· < ·) ∧ ∀ u ∈ τ, u < v := by
        have := (List.pairwise_append.mp (by rw [hsplit]; exact hsort))
        exact ⟨this.1, fun u hu => this.2.2 u hu v (by simp)⟩
      have hrτ : τ.Pairwise (fun u w => leR (D u w) rmax = true)
          ∧ ∀ u ∈ τ, leR (D u v) rmax = true := by
        have := (List.pairwise_append.mp (by rw [hsplit]; exact hrOK))
        exact ⟨this.1, fun u hu => this.2.2 u hu v (by simp)⟩
      have hbndτ : ∀ w ∈ τ, w < n := fun w hw =>
        hbnd w (by rw [← hsplit]; exact List.mem_append.mpr (Or.inl hw))
      have hmem_τ : (τ, maxPairwise D τ) ∈ ripsLevel n D rmax d :=
        (ih τ (maxPairwise D τ)).mpr ⟨hlτ, ⟨hbndτ, hsortτ.1, hrτ.1⟩, rfl⟩
      rw [List.mem_flatten]
      refine ⟨_, List.mem_map.mpr ⟨(τ, maxPairwise D τ), hmem_τ, rfl⟩, ?_⟩
      refine List.mem_map.mpr ⟨v, ?_, ?_⟩
      · refine List.mem_filter.mpr ⟨List.mem_range.mpr
            (hbnd v (by rw [← hsplit]; exact List.mem_append.mpr (Or.inr (by simp)))), ?_⟩
        refine List.all_eq_true.mpr (fun u hu => ?_)
        rw [Bool.and_eq_true, decide_eq_true_iff]
        exact ⟨hsortτ.2 u hu, hrτ.2 u hu⟩
      · have : b = max (maxPairwise D τ) (listMax (τ.map (fun u => D u v))) := by
          rw [hb, ← hsplit, maxPairwise_snoc]
        rw [← this, hsplit]

/-- Below the dimension bound, the Rips filtration's dimension list is the
corresponding clique-expansion level. -/
theorem rips_dimList (n : Nat) (D : Nat → Nat → ℚ) (rmax : Option ℚ)
    (k d : Nat) (hd : d < k + 1) :
    (ripsFiltration n D rmax k).dimList d = ripsLevel n D rmax d := by
  rw [ripsFiltration, Filtration.dimList]
  have hlen : d < ((List.range (k + 1)).map (ripsLevel n D rmax)).length := by
    simpa using hd
  rw [List.getD_eq_getElem _ _ hlen]
  simp

theorem rips_dimList_of_le (n : Nat) (D : Nat → Nat → ℚ) (rmax : Option ℚ)
    (k d : Nat) (hd : k + 1 ≤ d) :
    (ripsFiltration n D rmax k).dimList d = [] := by
  rw [ripsFiltration, Filtration.dimList]
  exact List.getD_eq_default _ _ (by simpa using hd)

/-! ### Landmark selection -/

theorem foldl_pick_mem (near : Nat → ℚ) (l : List Nat) (acc : Nat) :
    l.foldl (fun best i => if near best < near i then i else best) acc = acc
      ∨ l.foldl (fun best i => if near best < near i then i else best) acc ∈ l := by
  induction l generalizing acc with
  | nil => exact Or.inl rfl
  | cons x l ih =>
    rw [List.foldl_cons]
    by_cases hx : near acc < near x
    · rw [if_pos hx]
      rcases ih x with h | h
      · exact Or.inr (by rw [h]; exact List.mem_cons_self x l)
      · exact Or.inr (List.mem_cons_of_mem x h)
    · rw [if_neg hx]
      rcases ih acc with h | h
      · exact Or.inl h
      · exact Or.inr (List.mem_cons_of_mem x h)

/-- When not everything is selected, the chosen point is an in-range,
not-yet-selected index. -/
theorem argmaxUnsel_spec (n : Nat) (near : Nat → ℚ) (sel : List Nat)
    (hlen : sel.length < n) :
    argmaxUnsel n near sel < n ∧ argmaxUnsel n near sel ∉ sel := by
  have hcands : (List.range n).filter (fun i => !sel.contains i) ≠ [] := by
    intro hc
    have hsub : ∀ i ∈ List.range n, i ∈ sel := by
      intro i hi
      have := List.filter_eq_nil_iff.mp hc i hi
      simpa using this
    have h1 : (List.range n).toFinset ⊆ sel.toFinset := by
      intro x hx
      exact List.mem_toFinset.mpr (hsub x (List.mem_toFinset.mp hx))
    have h2 : n ≤ sel.length := by
      calc n = (List.range n).toFinset.card := by
              rw [List.toFinset_card_of_nodup (List.nodup_range n),
                List.length_range]
        _ ≤ sel.toFinset.card := Finset.card_le_card h1
        _ ≤ sel.length := List.toFinset_card_le sel
    omega
  have hmem : argmaxUnsel n near sel
      ∈ (List.range n).filter (fun i => !sel.contains i) := by
    rw [argmaxUnsel]
    cases hc : (List.range n).filter (fun i => !sel.contains i) with
    | nil => exact absurd hc hcands
    | cons c r =>
      rcases foldl_pick_mem near (c :: r) ((c :: r).headD 0) with h | h
      · rw [h]; exact List.mem_cons_self c r
      · exact h
  obtain ⟨h1, h2⟩ := List.mem_filter.mp hmem
  refine ⟨List.mem_range.mp h1, ?_⟩
  simpa using h2

theorem maxOver_nonneg (n : Nat) (near : Nat → ℚ) : 0 ≤ maxOver n near :=
  listMax_nonneg _

theorem maxOver_mono (n : Nat) (near near' : Nat → ℚ)
    (h : ∀ j, near' j ≤ near j) : maxOver n near' ≤ maxOver n near := by
  refine listMax_le _ _ (maxOver_nonneg n near) (fun x hx => ?_)
  obtain ⟨i, hi, rfl⟩ := List.mem_map.mp hx
  exact le_trans (h i) (le_listMax_of_mem _ _ (List.mem_map.mpr ⟨i, hi, rfl⟩))

/-- Invariant of the landmark loop: the selection is a duplicate-free list of
in-range indices headed by the seed, growing by one per step, and the
recorded radii (with the current covering radius appended) are
non-increasing. -/
theorem glIter_inv (n : Nat) (D : Nat → Nat → ℚ) (s : Nat) (hs : s < n)
    (m : Nat) (hm : m ≤ n - 1) :
    (glIter n D m ([s], fun j => D s j, [maxOver n (fun j => D s j)])).1.Nodup ∧
    (∀ i ∈ (glIter n D m ([s], fun j => D s j,
        [maxOver n (fun j => D s j)])).1, i < n) ∧
    (glIter n D m ([s], fun j => D s j,
        [maxOver n (fun j => D s j)])).1.length = m + 1 ∧
    (glIter n D m ([s], fun j => D s j,
        [maxOver n (fun j => D s j)])).1.head? = some s ∧
    (glIter n D m ([s], fun j => D s j,
        [maxOver n (fun j => D s j)])).2.2.length = m + 1 ∧
    List.Chain' (fun a b => b ≤ a)
      ((glIter n D m ([s], fun j => D s j, [maxOver n (fun j => D s j)])).2.2
        ++ [maxOver n (glIter n D m ([s], fun j => D s j,
              [maxOver n (fun j => D s j)])).2.1]) := by
  induction m with
  | zero =>
    refine ⟨List.nodup_singleton s, ?_, rfl, rfl, rfl, ?_⟩
    · intro i hi
      rcases List.mem_singleton.mp hi with rfl
      exact hs
    · show List.Chain' _ [maxOver n (fun j => D s j), maxOver n (fun j => D s j)]
      exact List.chain'_pair.mpr le_rfl
  | succ m ih =>
    obtain ⟨h1, h2, h3, h4, h5, h6⟩ := ih (by omega)
    set st := glIter n D m ([s], fun j => D s j, [maxOver n (fun j => D s j)])
      with hst
    have hstep : glIter n D (m + 1)
        ([s], fun j => D s j, [maxOver n (fun j => D s j)]) = glStep n D st := by
      rw [glIter, hst]
    obtain ⟨st1, st2, st3⟩ := st
    dsimp only at h1 h2 h3 h4 h5 h6
    have hpick := argmaxUnsel_spec n st2 st1 (by rw [h3]; omega)
    rw [hstep]
    refine ⟨?_, ?_, ?_, ?_, ?_, ?_⟩
    · rw [glStep]
      exact List.nodup_append.mpr ⟨h1, List.nodup_singleton _,
        fun a ha hb => by
          rcases List.mem_singleton.mp hb with rfl
          exact hpick.2 ha⟩
    · rw [glStep]
      intro i hi
      rcases List.mem_append.mp hi with hi | hi
      · exact h2 i hi
      · rcases List.mem_singleton.mp hi with rfl
        exact hpick.1
    · rw [glStep]
      dsimp only
      simp only [List.length_append, List.length_singleton]
      omega
    · rw [glStep]
      show (st1 ++ [argmaxUnsel n st2 st1]).head? = some s
      cases st1 with
      | nil => cases h4
      | cons a t => simpa using h4
    · rw [glStep]
      dsimp only
      simp only [List.length_append, List.length_singleton]
      omega
    · rw [glStep]
      dsimp only
      refine List.chain'_append.mpr ⟨h6, List.chain'_singleton _, ?_⟩
      intro x hx y hy
      rw [List.getLast?_concat] at hx
      obtain rfl : maxOver n st2 = x := Option.some.inj (Option.mem_def.mp hx)
      simp only [List.head?_cons] at hy
      obtain rfl : _ = y := Option.some.inj (Option.mem_def.mp hy)
      exact maxOver_mono n st2 _ (fun j => min_le_left _ _)

/-! ### The two storage strategies simulate each other -/

theorem encodeS_snoc (n : Nat) (σ : List Nat) (v : Nat) :
    encodeS n (σ ++ [v]) = encodeS n σ * (n + 2) + (v + 1) := by
  rw [encodeS, List.foldl_append]
  rfl

theorem decodeS_encodeS (n : Nat) (σ : List Nat) (h : ∀ v ∈ σ, v < n) :
    decodeS n (encodeS n σ) = σ := by
  induction σ using List.reverseRecOn with
  | nil =>
    show decodeS n 0 = []
    rw [decodeS]
  | append_singleton σ v ih =>
    rw [encodeS_snoc]
    have hv : v < n := h v (by simp)
    obtain ⟨c, hc⟩ : ∃ c, encodeS n σ * (n + 2) + (v + 1) = c + 1 :=
      ⟨encodeS n σ * (n + 2) + v, by omega⟩
    rw [hc, decodeS, ← hc]
    have hdiv : (encodeS n σ * (n + 2) + (v + 1)) / (n + 2) = encodeS n σ := by
      rw [Nat.mul_comm, Nat.mul_add_div (by omega),
        Nat.div_eq_of_lt (by omega), Nat.add_zero]
    have hmod : (encodeS n σ * (n + 2) + (v + 1)) % (n + 2) = v + 1 := by
      rw [Nat.mul_comm, Nat.mul_add_mod, Nat.mod_eq_of_lt (by omega)]
    rw [hdiv, hmod, ih (fun u hu => h u (by simp [hu]))]
    simp

theorem encodeS_inj (n : Nat) (σ τ : List Nat) (hσ : ∀ v ∈ σ, v < n)
    (hτ : ∀ v ∈ τ, v < n) (h : encodeS n σ = encodeS n τ) : σ = τ := by
  rw [← decodeS_encodeS n σ hσ, ← decodeS_encodeS n τ hτ, h]

theorem getD_map_nil {α β : Type} (f : List α → List β) (hf : f [] = [])
    (M : List (List α)) (i : Nat) : (M.map f).getD i [] = f (M.getD i []) := by
  by_cases h : i < M.length
  · rw [List.getD_eq_getElem _ _ (by simpa using h),
      List.getD_eq_getElem _ _ h, List.getElem_map]
  · push_neg at h
    rw [List.getD_eq_default _ _ (by simpa using h),
      List.getD_eq_default _ _ h, hf]

theorem padTo_map {α β : Type} (f : List α → List β) (hf : f [] = [])
    (M : List (List α)) (m : Nat) :
    padTo (M.map f) m = (padTo M m).map f := by
  rw [padTo, padTo, List.map_append, List.length_map]
  congr 1
  rw [List.map_replicate, hf]

/-- Pushing commutes with encoding the storage. -/
theorem appendAt_map_encode (n : Nat) (S : List (List Simplex)) (k : Nat)
    (σ : Simplex) :
    appendAt (S.map (fun l => l.map (encodeS n))) k (encodeS n σ)
      = (appendAt S k σ).map (fun l => l.map (encodeS n)) := by
  rw [appendAt, appendAt,
    padTo_map (fun l => l.map (encodeS n)) rfl S (k + 1),
    getD_map_nil (fun l => l.map (encodeS n)) rfl _ k]
  rw [show List.map (encodeS n) ((padTo S (k + 1)).getD k []) ++ [encodeS n σ]
      = List.map (encodeS n) ((padTo S (k + 1)).getD k [] ++ [σ]) by
    rw [List.map_append, List.map_singleton]]
  rw [← List.map_set]

/-- Membership agrees across the simulation for bounded simplices. -/
theorem memS_rel (n d : Nat) (X : SimplicialComplex)
    (L : LightSimplicialComplex) (hrel : LightRel n d X L) (τ : Simplex)
    (hτ : ∀ v ∈ τ, v < n) : L.memS τ = X.memS τ := by
  obtain ⟨hn, hd, hcodes, hbnd⟩ := hrel
  rw [Bool.eq_iff_iff]
  rw [LightSimplicialComplex.memS, LightSimplicialComplex.dimCodes, hcodes, hn,
    getD_map_nil (fun l => l.map (encodeS n)) rfl _ (τ.length - 1)]
  rw [SimplicialComplex.memS, decide_eq_true_iff, SimplicialComplex.dimList]
  constructor
  · intro hc
    have := List.elem_iff.mp hc
    obtain ⟨σ, hσ, heq⟩ := List.mem_map.mp this
    have hσb : ∀ v ∈ σ, v < n := hbnd (τ.length - 1) σ hσ
    rw [encodeS_inj n σ τ hσb hτ heq] at hσ
    exact hσ
  · intro hm
    exact List.elem_iff.mpr (List.mem_map.mpr ⟨τ, hm, rfl⟩)

/-- Pushing a bounded simplex preserves the simulation. -/
theorem push_rel (n d : Nat) (X : SimplicialComplex)
    (L : LightSimplicialComplex) (hrel : LightRel n d X L) (σ : Simplex)
    (hσ : ∀ v ∈ σ, v < n) : LightRel n d (X.push σ) (L.push σ) := by
  obtain ⟨hn, hd, hcodes, hbnd⟩ := hrel
  refine ⟨hn, hd, ?_, ?_⟩
  · rw [LightSimplicialComplex.push, SimplicialComplex.push]
    show appendAt L.codes (σ.length - 1) (encodeS L.n σ)
      = (appendAt X.simps (σ.length - 1) σ).map (fun l => l.map (encodeS n))
    rw [hcodes, hn, appendAt_map_encode]
  · intro k τ hτ v hv
    have hτ2 : τ ∈ (appendAt X.simps (σ.length - 1) σ).getD k [] := hτ
    by_cases hk : k = σ.length - 1
    · rw [hk, getD_appendAt_self] at hτ2
      rcases List.mem_append.mp hτ2 with hτ3 | hτ3
      · exact hbnd (σ.length - 1) τ hτ3 v hv
      · rcases List.mem_singleton.mp hτ3 with rfl
        exact hσ v hv
    · rw [getD_appendAt_ne _ _ _ _ hk] at hτ2
      exact hbnd k τ hτ2 v hv

theorem facets_sublist (σ τ : Simplex) (h : τ ∈ facets σ) : τ.Sublist σ := by
  rw [facets] at h
  split at h
  · cases h
  · obtain ⟨t, _, rfl⟩ := List.mem_map.mp h
    exact List.eraseIdx_sublist σ t

theorem all_eq_of_eq {α : Type} (l : List α) (f g : α → Bool)
    (h : ∀ x ∈ l, f x = g x) : l.all f = l.all g := by
  induction l with
  | nil => rfl
  | cons x l ih =>
    rw [List.all_cons, List.all_cons, h x (List.mem_cons_self x l),
      ih (fun y hy => h y (List.mem_cons_of_mem x hy))]

/-- `add` agrees across the simulation for bounded simplices. -/
theorem add_rel (n d : Nat) (X : SimplicialComplex)
    (L : LightSimplicialComplex) (hrel : LightRel n d X L) (σ : Simplex)
    (hσ : ∀ v ∈ σ, v < n) :
    (L.add σ).2 = (X.add σ).2 ∧ LightRel n d (X.add σ).1 (L.add σ).1 := by
  have hcond : (facets σ).all (fun τ => L.memS τ)
      = (facets σ).all (fun τ => X.memS τ) :=
    all_eq_of_eq _ _ _ (fun τ hτ => memS_rel n d X L hrel τ
      (fun v hv => hσ v ((facets_sublist σ τ hτ).mem hv)))
  cases hc : (facets σ).all (fun τ => X.memS τ) with
  | false =>
    rw [hc] at hcond
    constructor
    · simp [SimplicialComplex.add, LightSimplicialComplex.add, hcond, hc]
    · simp only [SimplicialComplex.add, LightSimplicialComplex.add, hcond, hc,
        Bool.false_eq_true, if_false]
      exact hrel
  | true =>
    rw [hc] at hcond
    constructor
    · simp [SimplicialComplex.add, LightSimplicialComplex.add, hcond, hc]
    · simp only [SimplicialComplex.add, LightSimplicialComplex.add, hcond, hc,
        if_true]
      exact push_rel n d X L hrel σ hσ

/-- The insert-if-absent fold agrees across the simulation. -/
theorem innerFold_rel (n d : Nat) (Ts : List Simplex)
    (hT : ∀ τ ∈ Ts, ∀ v ∈ τ, v < n) :
    ∀ (X : SimplicialComplex) (L : LightSimplicialComplex),
      LightRel n d X L →
      LightRel n d (Ts.foldl (fun Z ρ => if Z.memS ρ then Z else Z.push ρ) X)
        (Ts.foldl (fun Z ρ => if Z.memS ρ then Z else Z.push ρ) L) := by
  induction Ts with
  | nil => exact fun X L h => h
  | cons ρ Ts ih =>
    intro X L hrel
    have hρ : ∀ v ∈ ρ, v < n := hT ρ (List.mem_cons_self ρ Ts)
    have hmem := memS_rel n d X L hrel ρ hρ
    rw [List.foldl_cons, List.foldl_cons]
    have hT' : ∀ τ ∈ Ts, ∀ v ∈ τ, v < n :=
      fun τ hτ => hT τ (List.mem_cons_of_mem ρ hτ)
    cases hm : X.memS ρ with
    | true =>
      rw [hm] at hmem
      rw [hmem, if_pos rfl, if_pos rfl]
      exact ih hT' X L hrel
    | false =>
      rw [hm] at hmem
      rw [hmem, if_neg Bool.false_ne_true, if_neg Bool.false_ne_true]
      exact ih hT' _ _ (push_rel n d X L hrel ρ hρ)

/-- `add_recursive` agrees across the simulation for bounded simplices. -/
theorem addRec_rel (n d : Nat) (X : SimplicialComplex)
    (L : LightSimplicialComplex) (hrel : LightRel n d X L) (σ : Simplex)
    (hσ : ∀ v ∈ σ, v < n) :
    LightRel n d (X.addRecursive σ) (L.addRecursive σ) := by
  rw [SimplicialComplex.addRecursive, LightSimplicialComplex.addRecursive]
  generalize List.range σ.length = ds
  induction ds generalizing X L with
  | nil => exact hrel
  | cons dd ds ih =>
    rw [List.foldl_cons, List.foldl_cons]
    refine ih _ _ (innerFold_rel n d (chooseLen (dd + 1) σ) ?_ X L hrel)
    intro τ hτ v hv
    exact hσ v ((sublist_of_mem_chooseLen τ σ (dd + 1) hτ).1.mem hv)

/-- Running any bounded operation sequence preserves the simulation. -/
theorem runOps_rel (n d : Nat) (ops : List Op)
    (hb : ∀ op ∈ ops, ∀ v ∈ op.simplex, v < n) :
    ∀ (X : SimplicialComplex) (L : LightSimplicialComplex),
      LightRel n d X L → LightRel n d (runOps X ops) (runOpsL L ops) := by
  induction ops with
  | nil => exact fun X L h => h
  | cons op ops ih =>
    intro X L hrel
    have hb' : ∀ op' ∈ ops, ∀ v ∈ op'.simplex, v < n :=
      fun op' h => hb op' (List.mem_cons_of_mem op h)
    have hop : ∀ v ∈ op.simplex, v < n := hb op (List.mem_cons_self op ops)
    cases op with
    | add σ =>
      rw [runOps, runOpsL]
      exact ih hb' _ _ (add_rel n d X L hrel σ hop).2
    | addRec σ =>
      rw [runOps, runOpsL]
      exact ih hb' _ _ (addRec_rel n d X L hrel σ hop)

/-- The simulation relation identifies the decoded light complex with the
general one. -/
theorem toComplex_of_rel (n d : Nat) (X : SimplicialComplex)
    (L : LightSimplicialComplex) (hrel : LightRel n d X L) :
    L.toComplex = X := by
  obtain ⟨hn, hd, hcodes, hbnd⟩ := hrel
  rw [LightSimplicialComplex.toComplex, hcodes, hn]
  have hmaps : (X.simps.map (fun l => l.map (encodeS n))).map
      (fun l => l.map (decodeS n)) = X.simps := by
    rw [List.map_map]
    have hel : ∀ l ∈ X.simps,
        ((fun l => List.map (decodeS n) l) ∘ (fun l => List.map (encodeS n) l)) l
          = l := by
      intro l hl
      show List.map (decodeS n) (List.map (encodeS n) l) = l
      rw [List.map_map]
      have hb : ∀ σ ∈ l, ∀ v ∈ σ, v < n := by
        intro σ hσ
        obtain ⟨k, hk, hget⟩ := List.mem_iff_getElem.mp hl
        refine hbnd k σ ?_
        rw [List.getD_eq_getElem _ _ hk, hget]
        exact hσ
      calc l.map (decodeS n ∘ encodeS n)
          = l.map (fun a => a) :=
            List.map_congr_left (fun σ hσ => decodeS_encodeS n σ (hb σ hσ))
        _ = l := by simp
    calc X.simps.map
          ((fun l => List.map (decodeS n) l) ∘ (fun l => List.map (encodeS n) l))
        = X.simps.map (fun a => a) := List.map_congr_left hel
      _ = X.simps := by simp
  exact congrArg SimplicialComplex.mk hmaps

/-! ### Structure of the reduction output -/

theorem length_procFrom (p : ℕ) (rest : List (Col p)) :
    ∀ done, (procFrom p done rest).length = rest.length := by
  induction rest with
  | nil => intro done; rfl
  | cons c r ih =>
    intro done
    rw [procFrom, List.length_cons, List.length_cons, ih]

theorem length_reduceCols (p : ℕ) (cols : List (Col p)) :
    (reduceCols p cols).length = cols.length :=
  length_procFrom p cols []

theorem length_reduceOneF (p : ℕ) (done : List (Col p)) (L : Nat)
    (hdone : ∀ c ∈ done, c.length = L) :
    ∀ (fuel : Nat) (c : Col p), c.length = L →
      (reduceOneF p done fuel c).length = L := by
  intro fuel
  induction fuel with
  | zero => intro c hc; exact hc
  | succ f ih =>
    intro c hc
    rw [reduceOneF]
    split
    · exact hc
    · rename_i l hl
      split
      · exact hc
      · rename_i ci hfind
        apply ih
        rw [length_subMul, hc, hdone ci (List.mem_of_find?_eq_some hfind)]
        exact Nat.max_self L

/-- The reduction pass preserves a uniform column length. -/
theorem length_procFrom_cols (p : ℕ) (L : Nat) (rest : List (Col p)) :
    ∀ done, (∀ c ∈ done, c.length = L) → (∀ c ∈ rest, c.length = L) →
      ∀ c ∈ procFrom p done rest, c.length = L := by
  induction rest with
  | nil => intro done _ _ c hc; cases hc
  | cons c0 r ih =>
    intro done hdone hrest c hc
    rw [procFrom] at hc
    have hc0 : (reduceOne p done c0).length = L :=
      length_reduceOneF p done L hdone _ c0 (hrest c0 (List.mem_cons_self c0 r))
    rcases List.mem_cons.mp hc with rfl | hc2
    · exact hc0
    · refine ih (done ++ [reduceOne p done c0]) ?_
        (fun d hd => hrest d (List.mem_cons_of_mem c0 hd)) c hc2
      intro d hd
      rcases List.mem_append.mp hd with hd | hd
      · exact hdone d hd
      · rcases List.mem_singleton.mp hd with rfl
        exact hc0

/-- Every output column is settled against the carried prefix together with
the earlier outputs. -/
theorem procFrom_settled_prefix (p : ℕ) [Fact p.Prime] (rest : List (Col p)) :
    ∀ (done : List (Col p)) (j : Nat), j < rest.length →
      Settled p (done ++ (procFrom p done rest).take j)
        ((procFrom p done rest).getD j []) := by
  induction rest with
  | nil =>
    intro done j hj
    simp at hj
  | cons c r ih =>
    intro done j hj
    rw [procFrom]
    cases j with
    | zero =>
      rw [List.take_zero, List.append_nil]
      exact reduceOne_settled p done c
    | succ j' =>
      rw [List.take_succ_cons,
        show (reduceOne p done c
            :: procFrom p (done ++ [reduceOne p done c]) r).getD (j' + 1) []
          = (procFrom p (done ++ [reduceOne p done c]) r).getD j' [] from rfl,
        show done ++ (reduceOne p done c
            :: (procFrom p (done ++ [reduceOne p done c]) r).take j')
          = (done ++ [reduceOne p done c])
            ++ (procFrom p (done ++ [reduceOne p done c]) r).take j' by simp]
      exact ih (done ++ [reduceOne p done c]) j' (by simpa using hj)

/-- The lows of distinct reduced columns never coincide. -/
theorem reduceCols_lows_inj (p : ℕ) [Fact p.Prime] (cols : List (Col p))
    (i j l : Nat) (hij : i < j) (hj : j < cols.length)
    (hi : low? p ((reduceCols p cols).getD i []) = some l) :
    low? p ((reduceCols p cols).getD j []) ≠ some l := by
  intro hjlow
  have hs : Settled p ([] ++ (reduceCols p cols).take j)
      ((reduceCols p cols).getD j []) :=
    procFrom_settled_prefix p cols [] j hj
  rw [List.nil_append] at hs
  have hnone := hs l hjlow
  have hiR : i < (reduceCols p cols).length := by
    rw [length_reduceCols]
    omega
  have hmem : (reduceCols p cols).getD i [] ∈ (reduceCols p cols).take j := by
    rw [List.getD_eq_getElem _ _ hiR]
    have hit : i < ((reduceCols p cols).take j).length := by
      rw [List.length_take]
      omega
    rw [show (reduceCols p cols)[i] = ((reduceCols p cols).take j)[i] from
      (List.getElem_take _).symm]
    exact List.getElem_mem hit
  have := List.find?_eq_none.mp hnone _ hmem
  rw [hi] at this
  simp at this

/-! ### Spans and the triangular shape of the reduction -/

theorem InSpan_getD (p : ℕ) (A : List (Col p)) (j : Nat) (hj : j < A.length) :
    InSpan p A (A.getD j []) := by
  refine ⟨fun r => if r = j then 1 else 0, fun i => ?_⟩
  rw [Finset.sum_congr rfl (fun r _ => by
    rw [ite_mul, one_mul, zero_mul])]
  rw [Finset.sum_ite_eq' (Finset.range A.length) j
    (fun r => ent p (A.getD r []) i), if_pos (Finset.mem_range.mpr hj)]

theorem InSpan_mem (p : ℕ) (A : List (Col p)) (c : Col p) (hc : c ∈ A) :
    InSpan p A c := by
  obtain ⟨j, hj, hg⟩ := List.mem_iff_getElem.mp hc
  have : A.getD j [] = c := by rw [List.getD_eq_getElem _ _ hj, hg]
  rw [← this]
  exact InSpan_getD p A j hj

theorem InSpan_subMul (p : ℕ) (A : List (Col p)) (v w : Col p) (k : ZMod p)
    (hv : InSpan p A v) (hw : InSpan p A w) : InSpan p A (subMul p v k w) := by
  obtain ⟨fv, hfv⟩ := hv
  obtain ⟨fw, hfw⟩ := hw
  refine ⟨fun r => fv r - k * fw r, fun i => ?_⟩
  rw [ent_subMul, hfv, hfw, Finset.mul_sum, ← Finset.sum_sub_distrib]
  exact Finset.sum_congr rfl (fun r _ => by ring)

theorem reduceOneF_inSpan (p : ℕ) (A done : List (Col p))
    (hdone : ∀ c ∈ done, InSpan p A c) :
    ∀ (fuel : Nat) (c : Col p), InSpan p A c →
      InSpan p A (reduceOneF p done fuel c) := by
  intro fuel
  induction fuel with
  | zero => exact fun c hc => hc
  | succ f ih =>
    intro c hc
    rw [reduceOneF]
    split
    · exact hc
    · rename_i l hl
      split
      · exact hc
      · rename_i ci hfind
        exact ih _ (InSpan_subMul p A c ci _ hc
          (hdone ci (List.mem_of_find?_eq_some hfind)))

theorem procFrom_inSpan (p : ℕ) (A : List (Col p)) (rest : List (Col p)) :
    ∀ done, (∀ c ∈ done, InSpan p A c) → (∀ c ∈ rest, InSpan p A c) →
      ∀ c ∈ procFrom p done rest, InSpan p A c := by
  induction rest with
  | nil => intro done _ _ c hc; cases hc
  | cons c0 r ih =>
    intro done hdone hrest c hc
    rw [procFrom] at hc
    have hc0 : InSpan p A (reduceOne p done c0) :=
      reduceOneF_inSpan p A done hdone _ c0 (hrest c0 (List.mem_cons_self c0 r))
    rcases List.mem_cons.mp hc with rfl | hc2
    · exact hc0
    · refine ih (done ++ [reduceOne p done c0]) ?_
        (fun d hd => hrest d (List.mem_cons_of_mem c0 hd)) c hc2
      intro d hd
      rcases List.mem_append.mp hd with hd | hd
      · exact hdone d hd
      · rcases List.mem_singleton.mp hd with rfl
        exact hc0

/-- Every reduced column lies in the span of the original columns. -/
theorem reduceCols_inSpan (p : ℕ) (cols : List (Col p)) :
    ∀ c ∈ reduceCols p cols, InSpan p cols c :=
  procFrom_inSpan p cols cols [] (fun c hc => by cases hc)
    (fun c hc => InSpan_mem p cols c hc)

/-- One column reduction subtracts a combination of the earlier columns. -/
theorem reduceOneF_combo (p : ℕ) (done : List (Col p)) :
    ∀ (fuel : Nat) (c : Col p), ∃ g : Nat → ZMod p, ∀ i,
      ent p (reduceOneF p done fuel c) i
        = ent p c i
          - ∑ r ∈ Finset.range done.length, g r * ent p (done.getD r []) i := by
  intro fuel
  induction fuel with
  | zero =>
    intro c
    refine ⟨fun _ => 0, fun i => ?_⟩
    simp [reduceOneF]
  | succ f ih =>
    intro c
    rw [reduceOneF]
    split
    · exact ⟨fun _ => 0, fun i => by simp⟩
    · rename_i l hl
      split
      · exact ⟨fun _ => 0, fun i => by simp⟩
      · rename_i ci hfind
        obtain ⟨g2, hg2⟩ := ih (subMul p c (ent p c l * fldInv p (ent p ci l)) ci)
        obtain ⟨r0, hr0lt, hr0⟩ :=
          List.mem_iff_getElem.mp (List.mem_of_find?_eq_some hfind)
        have hgetD : done.getD r0 [] = ci := by
          rw [List.getD_eq_getElem _ _ hr0lt, hr0]
        refine ⟨fun r => g2 r
          + (if r = r0 then ent p c l * fldInv p (ent p ci l) else 0),
          fun i => ?_⟩
        rw [hg2 i, ent_subMul]
        simp only [add_mul, ite_mul, zero_mul]
        rw [Finset.sum_add_distrib,
          Finset.sum_ite_eq' (Finset.range done.length) r0
            (fun r => ent p c l * fldInv p (ent p ci l) * ent p (done.getD r []) i),
          if_pos (Finset.mem_range.mpr hr0lt), hgetD]
        ring

/-- Triangular shape: each input column is its reduced column plus a
combination of the prior carried and reduced columns. -/
theorem procFrom_triangular (p : ℕ) (rest : List (Col p)) :
    ∀ (done : List (Col p)) (j : Nat), j < rest.length →
      ∃ g : Nat → ZMod p, ∀ i,
        ent p (rest.getD j []) i
          = ent p ((procFrom p done rest).getD j []) i
            + ∑ s ∈ Finset.range (done.length + j),
                g s * ent p ((done ++ (procFrom p done rest).take j).getD s []) i := by
  induction rest with
  | nil =>
    intro done j hj
    simp at hj
  | cons c r ih =>
    intro done j hj
    rw [procFrom]
    cases j with
    | zero =>
      obtain ⟨g, hg⟩ := reduceOneF_combo p done (lowM p c) c
      refine ⟨g, fun i => ?_⟩
      rw [List.take_zero, List.append_nil, Nat.add_zero,
        show ((c :: r).getD 0 []) = c from rfl,
        show ((reduceOne p done c
            :: procFrom p (done ++ [reduceOne p done c]) r).getD 0 [])
          = reduceOne p done c from rfl,
        show reduceOne p done c = reduceOneF p done (lowM p c) c from rfl,
        hg i]
      ring
    | succ j' =>
      obtain ⟨g, hg⟩ := ih (done ++ [reduceOne p done c]) j' (by simpa using hj)
      refine ⟨g, fun i => ?_⟩
      rw [List.take_succ_cons,
        show ((c :: r).getD (j' + 1) []) = r.getD j' [] from rfl,
        show ((reduceOne p done c
            :: procFrom p (done ++ [reduceOne p done c]) r).getD (j' + 1) [])
          = (procFrom p (done ++ [reduceOne p done c]) r).getD j' [] from rfl,
        show done ++ (reduceOne p done c
            :: (procFrom p (done ++ [reduceOne p done c]) r).take j')
          = (done ++ [reduceOne p done c])
            ++ (procFrom p (done ++ [reduceOne p done c]) r).take j' by simp,
        show done.length + (j' + 1) = (done ++ [reduceOne p done c]).length + j' by
          rw [List.length_append, List.length_singleton]
          omega]
      exact hg i

/-- Triangular shape of the full pass: input column `j` equals reduced
column `j` plus a combination of the earlier reduced columns. -/
theorem reduceCols_triangular (p : ℕ) (cols : List (Col p)) (j : Nat)
    (hj : j < cols.length) :
    ∃ g : Nat → ZMod p, ∀ i,
      ent p (cols.getD j []) i
        = ent p ((reduceCols p cols).getD j []) i
          + ∑ s ∈ Finset.range j,
              g s * ent p ((reduceCols p cols).getD s []) i := by
  obtain ⟨g, hg⟩ := procFrom_triangular p cols [] j hj
  refine ⟨g, fun i => ?_⟩
  have h1 := hg i
  rw [List.nil_append, show (([] : List (Col p))).length + j = j from by simp] at h1
  have hjR : j ≤ (procFrom p [] cols).length := by
    rw [length_procFrom]
    omega
  have h2 : ∀ s ∈ Finset.range j,
      g s * ent p (((procFrom p [] cols).take j).getD s []) i
        = g s * ent p ((procFrom p [] cols).getD s []) i := by
    intro s hs
    have hsj : s < j := Finset.mem_range.mp hs
    have hst : s < ((procFrom p [] cols).take j).length := by
      rw [List.length_take]
      omega
    rw [List.getD_eq_getElem _ _ hst,
      List.getD_eq_getElem _ _ (by omega : s < (procFrom p [] cols).length),
      List.getElem_take]
  rw [Finset.sum_congr rfl h2] at h1
  rw [reduceCols]
  exact h1

/-! ### Filtration order is a permutation of insertion order -/

theorem insertByBirth_perm (e : Simplex × ℚ × Nat) (l : List (Simplex × ℚ × Nat)) :
    (insertByBirth e l).Perm (e :: l) := by
  induction l with
  | nil => exact List.Perm.refl _
  | cons f rest ih =>
    rw [insertByBirth]
    split
    · exact (ih.cons f).trans (List.Perm.swap e f rest)
    · exact List.Perm.refl _

theorem sortFold_perm (l : List (Simplex × ℚ × Nat)) :
    ∀ acc, (l.foldl (fun a e => insertByBirth e a) acc).Perm (acc ++ l) := by
  induction l with
  | nil => intro acc; simp
  | cons e r ih =>
    intro acc
    rw [List.foldl_cons]
    refine (ih (insertByBirth e acc)).trans ?_
    refine ((insertByBirth_perm e acc).append_right r).trans ?_
    exact List.perm_middle.symm

theorem sortByBirth_perm (l : List (Simplex × ℚ × Nat)) :
    (sortByBirth l).Perm l := by
  have h := sortFold_perm l []
  rw [List.nil_append] at h
  exact h

/-- The per-dimension filtration order is a permutation of the stored
(entry, original index) enumeration. -/
theorem sorted_perm (F : Filtration) (k : Nat) :
    (F.sorted k).Perm ((F.dimList k).enum.map (fun e => (e.2.1, e.2.2, e.1))) :=
  sortByBirth_perm _

theorem length_sorted (F : Filtration) (k : Nat) :
    (F.sorted k).length = (F.dimList k).length := by
  rw [(sorted_perm F k).length_eq, List.length_map, List.enum_length]

theorem sorted_fst_perm (F : Filtration) (k : Nat) :
    ((F.sorted k).map (fun e => e.1)).Perm ((F.dimList k).map (fun e => e.1)) := by
  refine ((sorted_perm F k).map _).trans ?_
  rw [List.map_map,
    show ((fun (e : Simplex × ℚ × Nat) => e.1)
        ∘ (fun (e : Nat × (Simplex × ℚ)) => (e.2.1, e.2.2, e.1)))
      = ((fun (x : Simplex × ℚ) => x.1) ∘ Prod.snd) from rfl,
    ← List.map_map, List.enum_map_snd]

/-- The original-index components of the filtration order form a permutation
of `0 .. m-1`. -/
theorem sorted_idx_perm (F : Filtration) (k : Nat) :
    ((F.sorted k).map (fun e => e.2.2)).Perm (List.range (F.dimList k).length) := by
  refine ((sorted_perm F k).map _).trans ?_
  rw [List.map_map,
    show ((fun (e : Simplex × ℚ × Nat) => e.2.2)
        ∘ (fun (e : Nat × (Simplex × ℚ)) => (e.2.1, e.2.2, e.1)))
      = Prod.fst from rfl,
    List.enum_map_fst]

theorem sorted_idx_lt (F : Filtration) (k : Nat) (l : Nat)
    (hl : l < (F.dimList k).length) :
    ((F.sorted k).getD l ([], 0, 0)).2.2 < (F.dimList k).length := by
  have hl2 : l < (F.sorted k).length := by rw [length_sorted]; exact hl
  rw [List.getD_eq_getElem _ _ hl2]
  have hmem : (F.sorted k)[l].2.2 ∈ (F.sorted k).map (fun e => e.2.2) :=
    List.mem_map.mpr ⟨_, List.getElem_mem hl2, rfl⟩
  exact List.mem_range.mp ((sorted_idx_perm F k).mem_iff.mp hmem)

theorem sorted_idx_inj (F : Filtration) (k : Nat) (l l2 : Nat)
    (hl : l < (F.dimList k).length) (hl2 : l2 < (F.dimList k).length)
    (heq : ((F.sorted k).getD l ([], 0, 0)).2.2
      = ((F.sorted k).getD l2 ([], 0, 0)).2.2) : l = l2 := by
  have hnd : ((F.sorted k).map (fun e => e.2.2)).Nodup :=
    (sorted_idx_perm F k).nodup_iff.mpr (List.nodup_range _)
  have h1 : l < (F.sorted k).length := by rw [length_sorted]; exact hl
  have h2 : l2 < (F.sorted k).length := by rw [length_sorted]; exact hl2
  have hm1 : l < ((F.sorted k).map (fun e => e.2.2)).length := by
    rw [List.length_map]; exact h1
  have hm2 : l2 < ((F.sorted k).map (fun e => e.2.2)).length := by
    rw [List.length_map]; exact h2
  rw [List.getD_eq_getElem _ _ h1, List.getD_eq_getElem _ _ h2] at heq
  have hmap : ((F.sorted k).map (fun e => e.2.2))[l]
      = ((F.sorted k).map (fun e => e.2.2))[l2] := by
    rw [List.getElem_map, List.getElem_map]
    exact heq
  exact (hnd.getElem_inj_iff).mp hmap

theorem sorted_idx_surj (F : Filtration) (k : Nat) (i : Nat)
    (hi : i < (F.dimList k).length) :
    ∃ l, l < (F.dimList k).length ∧ ((F.sorted k).getD l ([], 0, 0)).2.2 = i := by
  have hmem : i ∈ (F.sorted k).map (fun e => e.2.2) :=
    (sorted_idx_perm F k).mem_iff.mpr (List.mem_range.mpr hi)
  obtain ⟨e, he, hei⟩ := List.mem_map.mp hmem
  obtain ⟨l, hl, hgl⟩ := List.mem_iff_getElem.mp he
  refine ⟨l, by rw [← length_sorted F k]; exact hl, ?_⟩
  rw [List.getD_eq_getElem _ _ hl, hgl]
  exact hei

theorem sorted_fst_mem (F : Filtration) (k : Nat) (e : Simplex × ℚ × Nat)
    (he : e ∈ F.sorted k) : e.1 ∈ (F.dimList k).map (fun x => x.1) :=
  (sorted_fst_perm F k).mem_iff.mp (List.mem_map.mpr ⟨e, he, rfl⟩)

theorem sorted_fst_nodup (F : Filtration) (k : Nat)
    (h : ((F.dimList k).map (fun e => e.1)).Nodup) :
    ((F.sorted k).map (fun e => e.1)).Nodup :=
  (sorted_fst_perm F k).nodup_iff.mpr h

/-! ### The boundary of a boundary vanishes -/

theorem eraseIdx_eraseIdx_of_le (σ : List Nat) :
    ∀ t u, t ≤ u → (σ.eraseIdx t).eraseIdx u = (σ.eraseIdx (u + 1)).eraseIdx t := by
  induction σ with
  | nil => intro t u _; rfl
  | cons a s ih =>
    intro t u htu
    cases t with
    | zero => rfl
    | succ t2 =>
      cases u with
      | zero => omega
      | succ u2 =>
        show a :: (s.eraseIdx t2).eraseIdx u2 = a :: (s.eraseIdx (u2 + 1)).eraseIdx t2
        rw [ih t2 u2 (by omega)]

/-- Collapsing a row sum over a duplicate-free row list at a present row. -/
theorem sum_getD_collapse (p : ℕ) (rows : List Simplex) (hnd : rows.Nodup)
    (τ : Simplex) (hτ : τ ∈ rows) (Φ : Simplex → ZMod p) :
    (∑ r ∈ Finset.range rows.length,
      if τ = rows.getD r [] then Φ (rows.getD r []) else 0) = Φ τ := by
  obtain ⟨r0, hr0, hg0⟩ := List.mem_iff_getElem.mp hτ
  have hgd0 : rows.getD r0 [] = τ := by rw [List.getD_eq_getElem _ _ hr0, hg0]
  rw [Finset.sum_eq_single_of_mem r0 (Finset.mem_range.mpr hr0)]
  · rw [hgd0, if_pos rfl]
  · intro b hb hbne
    have hblt : b < rows.length := Finset.mem_range.mp hb
    rw [if_neg]
    intro hbe
    apply hbne
    have hgb : rows.getD b [] = rows[b] := List.getD_eq_getElem _ _ hblt
    have hbr : rows[b] = rows[r0] := by
      rw [← hgb, ← hbe, hg0]
    exact (hnd.getElem_inj_iff).mp hbr

/-- ∂∂ = 0, row-expanded: for a simplex all of whose facets occur in a
duplicate-free row list, the composite incidence sum into any target row
vanishes. -/
theorem bdry_bdry (p : ℕ) (σ ρ : Simplex) (rows : List Simplex)
    (hnd : rows.Nodup) (hfac : ∀ t, t < σ.length → σ.eraseIdx t ∈ rows) :
    (∑ r ∈ Finset.range rows.length,
      bdryEntry p σ (rows.getD r []) * bdryEntry p (rows.getD r []) ρ) = 0 := by
  have step1 : ∀ r, bdryEntry p σ (rows.getD r []) * bdryEntry p (rows.getD r []) ρ
      = ∑ t ∈ Finset.range σ.length,
          if σ.eraseIdx t = rows.getD r []
          then (-1) ^ t * bdryEntry p (rows.getD r []) ρ else 0 := by
    intro r
    rw [bdryEntry, Finset.sum_mul]
    exact Finset.sum_congr rfl (fun t _ => by rw [ite_mul, zero_mul])
  rw [Finset.sum_congr rfl (fun r _ => step1 r), Finset.sum_comm]
  have step3 : ∀ t ∈ Finset.range σ.length,
      (∑ r ∈ Finset.range rows.length,
        if σ.eraseIdx t = rows.getD r []
        then (-1 : ZMod p) ^ t * bdryEntry p (rows.getD r []) ρ else 0)
      = (-1) ^ t * bdryEntry p (σ.eraseIdx t) ρ := by
    intro t ht
    exact sum_getD_collapse p rows hnd (σ.eraseIdx t)
      (hfac t (Finset.mem_range.mp ht))
      (fun τ => (-1) ^ t * bdryEntry p τ ρ)
  rw [Finset.sum_congr rfl step3]
  have step4 : ∀ t ∈ Finset.range σ.length,
      ((-1 : ZMod p) ^ t * bdryEntry p (σ.eraseIdx t) ρ)
      = ∑ u ∈ Finset.range (σ.length - 1),
          if (σ.eraseIdx t).eraseIdx u = ρ then (-1) ^ t * (-1) ^ u else 0 := by
    intro t ht
    rw [bdryEntry, Finset.mul_sum,
      List.length_eraseIdx_of_lt (Finset.mem_range.mp ht)]
    exact Finset.sum_congr rfl (fun u _ => by rw [mul_ite, mul_zero])
  rw [Finset.sum_congr rfl step4, ← Finset.sum_product']
  refine Finset.sum_involution
    (fun a _ => if a.1 ≤ a.2 then (a.2 + 1, a.1) else (a.2, a.1 - 1)) ?_ ?_ ?_ ?_
  · rintro ⟨t, u⟩ _
    dsimp only
    by_cases htu : t ≤ u
    · rw [if_pos htu]
      dsimp only
      by_cases hc : (σ.eraseIdx t).eraseIdx u = ρ
      · rw [if_pos hc,
          if_pos (by rw [← eraseIdx_eraseIdx_of_le σ t u htu]; exact hc),
          pow_succ]
        ring
      · rw [if_neg hc,
          if_neg (by rw [← eraseIdx_eraseIdx_of_le σ t u htu]; exact hc),
          add_zero]
    · rw [if_neg htu]
      dsimp only
      have ht1 : t - 1 + 1 = t := by omega
      have hcomm : (σ.eraseIdx u).eraseIdx (t - 1) = (σ.eraseIdx t).eraseIdx u := by
        rw [eraseIdx_eraseIdx_of_le σ u (t - 1) (by omega), ht1]
      by_cases hc : (σ.eraseIdx t).eraseIdx u = ρ
      · rw [if_pos hc, if_pos (by rw [hcomm]; exact hc)]
        have hp : ((-1 : ZMod p)) ^ t = (-1) ^ (t - 1) * (-1) := by
          rw [← pow_succ, ht1]
        rw [hp]
        ring
      · rw [if_neg hc, if_neg (by rw [hcomm]; exact hc), add_zero]
  · rintro ⟨t, u⟩ _ _
    dsimp only
    by_cases htu : t ≤ u
    · rw [if_pos htu]
      intro hcontra
      have h1 := congrArg Prod.fst hcontra
      have h2 := congrArg Prod.snd hcontra
      dsimp only at h1 h2
      omega
    · rw [if_neg htu]
      intro hcontra
      have h1 := congrArg Prod.fst hcontra
      dsimp only at h1
      omega
  · rintro ⟨t, u⟩ ha
    simp only [Finset.mem_product, Finset.mem_range] at ha
    dsimp only
    by_cases htu : t ≤ u
    · rw [if_pos htu]
      simp only [Finset.mem_product, Finset.mem_range]
      omega
    · rw [if_neg htu]
      simp only [Finset.mem_product, Finset.mem_range]
      omega
  · rintro ⟨t, u⟩ _
    dsimp only
    by_cases htu : t ≤ u
    · rw [if_pos htu]
      dsimp only
      rw [if_neg (by omega : ¬ u + 1 ≤ t)]
      have hu : u + 1 - 1 = u := by omega
      rw [hu]
    · rw [if_neg htu]
      dsimp only
      rw [if_pos (by omega : u ≤ t - 1)]
      have ht : t - 1 + 1 = t := by omega
      rw [ht]

/-! ### Boundary matrices: shape and the cycle property -/

theorem getD_map_of_lt {α β : Type} (f : α → β) (l : List α) (j : Nat)
    (hj : j < l.length) (d : α) (d2 : β) :
    (l.map f).getD j d2 = f (l.getD j d) := by
  rw [List.getD_eq_getElem _ _ (by rw [List.length_map]; exact hj),
    List.getD_eq_getElem _ _ hj, List.getElem_map]

theorem length_dCols (p : ℕ) (F : Filtration) (k : Nat) :
    (dCols p F k).length = (F.sorted k).length := by
  cases k <;> simp [dCols]

theorem dCols_col_length (p : ℕ) (F : Filtration) (k : Nat) :
    ∀ c ∈ dCols p F (k + 1), c.length = (F.sorted k).length := by
  intro c hc
  rw [show dCols p F (k + 1)
      = (F.sorted (k + 1)).map
          (fun e => (F.sorted k).map (fun r => bdryEntry p e.1 r.1)) from rfl] at hc
  obtain ⟨e, _, he⟩ := List.mem_map.mp hc
  rw [← he, List.length_map]

theorem dCols_succ_getD (p : ℕ) (F : Filtration) (k j : Nat)
    (hj : j < (F.sorted (k + 1)).length) :
    (dCols p F (k + 1)).getD j []
      = (F.sorted k).map
          (fun r => bdryEntry p ((F.sorted (k + 1)).getD j ([], 0, 0)).1 r.1) := by
  show ((F.sorted (k + 1)).map
      (fun e => (F.sorted k).map (fun r => bdryEntry p e.1 r.1))).getD j [] = _
  rw [getD_map_of_lt _ _ j hj ([], 0, 0) []]

theorem ent_dCols (p : ℕ) (F : Filtration) (k j i : Nat)
    (hj : j < (F.sorted (k + 1)).length) (hi : i < (F.sorted k).length) :
    ent p ((dCols p F (k + 1)).getD j []) i
      = bdryEntry p ((F.sorted (k + 1)).getD j ([], 0, 0)).1
          ((F.sorted k).getD i ([], 0, 0)).1 := by
  rw [dCols_succ_getD p F k j hj, ent, getD_map_of_lt _ _ i hi ([], 0, 0) 0]

theorem dCols_zero_getD (p : ℕ) (F : Filtration) (r : Nat) :
    (dCols p F 0).getD r [] = [] := by
  show ((F.sorted 0).map (fun _ => ([] : Col p))).getD r [] = []
  rcases Nat.lt_or_ge r (F.sorted 0).length with hr | hr
  · rw [getD_map_of_lt _ _ r hr ([], 0, 0) []]
  · exact List.getD_eq_default _ _ (by rw [List.length_map]; exact hr)

theorem dimList_nil_of_le (F : Filtration) (k : Nat) (h : F.simps.length ≤ k) :
    F.dimList k = [] :=
  List.getD_eq_default _ _ h

theorem lt_length_of_sorted_pos (F : Filtration) (k : Nat)
    (h : 0 < (F.sorted k).length) : k < F.simps.length := by
  by_contra hk
  rw [length_sorted, dimList_nil_of_le F k (by omega)] at h
  simp at h

/-- Composing consecutive boundary matrices of a well-formed filtration gives
zero: column `j` of `∂_(k+1)` pairs to zero against every row of `∂_k`. -/
theorem dCols_cycle (p : ℕ) (F : Filtration) (hWF : WFFiltration F) (k j : Nat)
    (hj : j < (dCols p F (k + 1)).length) (i : Nat) :
    ∑ r ∈ Finset.range (dCols p F k).length,
      ent p ((dCols p F (k + 1)).getD j []) r * ent p ((dCols p F k).getD r []) i
      = 0 := by
  cases k with
  | zero =>
    refine Finset.sum_eq_zero (fun r _ => ?_)
    rw [dCols_zero_getD, ent_nil, mul_zero]
  | succ k2 =>
    have hj2 : j < (F.sorted (k2 + 2)).length := by
      rw [← length_dCols p F (k2 + 2)]; exact hj
    rcases Nat.lt_or_ge i (F.sorted k2).length with hic | hic
    · rcases Nat.eq_zero_or_pos (F.sorted (k2 + 1)).length with hm0 | _
      · rw [length_dCols, hm0]
        simp
      · have hk2 : k2 + 2 < F.simps.length :=
          lt_length_of_sorted_pos F (k2 + 2) (by omega)
        have hk1 : k2 + 1 < F.simps.length := by omega
        have hnd : ((F.sorted (k2 + 1)).map (fun e => e.1)).Nodup :=
          sorted_fst_nodup F (k2 + 1) ((hWF (k2 + 1) hk1).1)
        have hjmem : (F.sorted (k2 + 2)).getD j ([], 0, 0) ∈ F.sorted (k2 + 2) := by
          rw [List.getD_eq_getElem _ _ hj2]
          exact List.getElem_mem hj2
        have hσ : ((F.sorted (k2 + 2)).getD j ([], 0, 0)).1
            ∈ (F.dimList (k2 + 2)).map (fun x => x.1) :=
          sorted_fst_mem F (k2 + 2) _ hjmem
        obtain ⟨eσ, heσmem, heσ⟩ := List.mem_map.mp hσ
        have hfac : ∀ t, t < ((F.sorted (k2 + 2)).getD j ([], 0, 0)).1.length →
            ((F.sorted (k2 + 2)).getD j ([], 0, 0)).1.eraseIdx t
              ∈ (F.sorted (k2 + 1)).map (fun e => e.1) := by
          intro t ht
          refine (sorted_fst_perm F (k2 + 1)).mem_iff.mpr ?_
          rw [← heσ] at ht ⊢
          exact (hWF (k2 + 2) hk2).2 (by omega) eσ heσmem t ht
        have htrans : ∀ r ∈ Finset.range (dCols p F (k2 + 1)).length,
            ent p ((dCols p F (k2 + 2)).getD j []) r
              * ent p ((dCols p F (k2 + 1)).getD r []) i
            = bdryEntry p ((F.sorted (k2 + 2)).getD j ([], 0, 0)).1
                (((F.sorted (k2 + 1)).map (fun e => e.1)).getD r [])
              * bdryEntry p (((F.sorted (k2 + 1)).map (fun e => e.1)).getD r [])
                  ((F.sorted k2).getD i ([], 0, 0)).1 := by
          intro r hr
          have hrl : r < (F.sorted (k2 + 1)).length := by
            rw [← length_dCols p F (k2 + 1)]
            exact Finset.mem_range.mp hr
          rw [ent_dCols p F (k2 + 1) j r hj2 hrl, ent_dCols p F k2 r i hrl hic,
            getD_map_of_lt (fun e => e.1) _ r hrl ([], 0, 0) []]
        rw [Finset.sum_congr rfl htrans,
          show (dCols p F (k2 + 1)).length
            = ((F.sorted (k2 + 1)).map (fun e => e.1)).length from by
              rw [length_dCols, List.length_map]]
        exact bdry_bdry p _ _ _ hnd hfac
    · refine Finset.sum_eq_zero (fun r hr => ?_)
      have hrl : r < (dCols p F (k2 + 1)).length := Finset.mem_range.mp hr
      have hmem : (dCols p F (k2 + 1)).getD r [] ∈ dCols p F (k2 + 1) := by
        rw [List.getD_eq_getElem _ _ hrl]
        exact List.getElem_mem hrl
      rw [ent_eq_zero_of_len_le p _ i
        (by rw [dCols_col_length p F k2 _ hmem]; exact hic), mul_zero]

/-! ### Zero columns and their killers: the pairing core -/

theorem sum_range_extend (p : ℕ) (m r : Nat) (hrm : r ≤ m) (f : Nat → ZMod p) :
    (∑ s ∈ Finset.range r, f s) = ∑ s ∈ Finset.range m, if s < r then f s else 0 := by
  rw [← Finset.sum_filter]
  refine Finset.sum_congr ?_ (fun x _ => rfl)
  ext x
  simp only [Finset.mem_filter, Finset.mem_range]
  omega

/-- Any coefficient vector pairing the original columns to zero transfers to
one pairing the reduced columns to zero, agreeing at every position that only
sees vanishing higher coefficients. -/
theorem exists_w_combo (p : ℕ) (cols : List (Col p)) (a : Nat → ZMod p)
    (hcyc : ∀ i, ∑ r ∈ Finset.range cols.length,
      a r * ent p (cols.getD r []) i = 0) :
    ∃ w : Nat → ZMod p,
      (∀ s, (∀ r, s < r → a r = 0) → w s = a s) ∧
      (∀ i, ∑ s ∈ Finset.range cols.length,
        w s * ent p ((reduceCols p cols).getD s []) i = 0) := by
  have htri : ∀ r, ∃ g : Nat → ZMod p, r < cols.length → ∀ i,
      ent p (cols.getD r []) i
        = ent p ((reduceCols p cols).getD r []) i
          + ∑ s ∈ Finset.range r, g s * ent p ((reduceCols p cols).getD s []) i := by
    intro r
    by_cases hr : r < cols.length
    · obtain ⟨g, hgg⟩ := reduceCols_triangular p cols r hr
      exact ⟨g, fun _ => hgg⟩
    · exact ⟨fun _ => 0, fun h2 => absurd h2 hr⟩
  choose g hg using htri
  refine ⟨fun s => a s + ∑ r ∈ Finset.range cols.length,
      if s < r then a r * g r s else 0, ?_, ?_⟩
  · intro s hs
    show a s + (∑ r ∈ Finset.range cols.length,
      if s < r then a r * g r s else 0) = a s
    have hz : (∑ r ∈ Finset.range cols.length,
        if s < r then a r * g r s else 0) = 0 := by
      refine Finset.sum_eq_zero (fun r _ => ?_)
      by_cases hsr : s < r
      · rw [if_pos hsr, hs r hsr, zero_mul]
      · rw [if_neg hsr]
    rw [hz, add_zero]
  · intro i
    have step1 : ∑ s ∈ Finset.range cols.length,
        (a s + ∑ r ∈ Finset.range cols.length, if s < r then a r * g r s else 0)
          * ent p ((reduceCols p cols).getD s []) i
        = ∑ s ∈ Finset.range cols.length,
            (a s * ent p ((reduceCols p cols).getD s []) i
              + ∑ r ∈ Finset.range cols.length,
                  if s < r
                  then a r * (g r s * ent p ((reduceCols p cols).getD s []) i)
                  else 0) := by
      refine Finset.sum_congr rfl (fun s _ => ?_)
      rw [add_mul, Finset.sum_mul]
      congr 1
      refine Finset.sum_congr rfl (fun r _ => ?_)
      rw [ite_mul, zero_mul, mul_assoc]
    have step2 : ∑ r ∈ Finset.range cols.length, a r * ent p (cols.getD r []) i
        = ∑ r ∈ Finset.range cols.length,
            (a r * ent p ((reduceCols p cols).getD r []) i
              + ∑ s ∈ Finset.range cols.length,
                  if s < r
                  then a r * (g r s * ent p ((reduceCols p cols).getD s []) i)
                  else 0) := by
      refine Finset.sum_congr rfl (fun r hr => ?_)
      rw [hg r (Finset.mem_range.mp hr) i, mul_add, Finset.mul_sum,
        sum_range_extend p cols.length r (le_of_lt (Finset.mem_range.mp hr))
          (fun s => a r * (g r s * ent p ((reduceCols p cols).getD s []) i))]
    have step3 : ∑ s ∈ Finset.range cols.length, ∑ r ∈ Finset.range cols.length,
          (if s < r
            then a r * (g r s * ent p ((reduceCols p cols).getD s []) i) else 0)
        = ∑ r ∈ Finset.range cols.length, ∑ s ∈ Finset.range cols.length,
          (if s < r
            then a r * (g r s * ent p ((reduceCols p cols).getD s []) i) else 0) :=
      Finset.sum_comm
    rw [step1, Finset.sum_add_distrib, step3, ← Finset.sum_add_distrib, ← step2]
    exact hcyc i

/-- A nontrivial vanishing combination of the reduced columns forces the
column at any position with nonzero coefficient to be zero (distinct lows). -/
theorem span_zero_of_lows (p : ℕ) [Fact p.Prime] (cols : List (Col p))
    (w : Nat → ZMod p)
    (h0 : ∀ i, ∑ s ∈ Finset.range cols.length,
      w s * ent p ((reduceCols p cols).getD s []) i = 0)
    (l : Nat) (hl : l < cols.length) (hwl : w l ≠ 0) :
    low? p ((reduceCols p cols).getD l []) = none := by
  by_contra hsome
  have hlS : l ∈ (Finset.range cols.length).filter
      (fun s => w s ≠ 0 ∧ (low? p ((reduceCols p cols).getD s [])).isSome) := by
    rw [Finset.mem_filter]
    refine ⟨Finset.mem_range.mpr hl, hwl, ?_⟩
    rcases hx : low? p ((reduceCols p cols).getD l []) with _ | l0
    · exact absurd hx hsome
    · rfl
  obtain ⟨s0, hs0S, hs0max⟩ := Finset.exists_max_image
    ((Finset.range cols.length).filter
      (fun s => w s ≠ 0 ∧ (low? p ((reduceCols p cols).getD s [])).isSome))
    (fun s => lowM p ((reduceCols p cols).getD s [])) ⟨l, hlS⟩
  have hs0S2 := hs0S
  rw [Finset.mem_filter, Finset.mem_range] at hs0S2
  obtain ⟨hs0m, hws0, hlow0⟩ := hs0S2
  obtain ⟨l0, hl0⟩ := Option.isSome_iff_exists.mp hlow0
  have hside : ∀ b ∈ Finset.range cols.length, b ≠ s0 →
      w b * ent p ((reduceCols p cols).getD b []) l0 = 0 := by
    intro b hb hbne
    by_cases hwb : w b = 0
    · rw [hwb, zero_mul]
    · rcases hlb : low? p ((reduceCols p cols).getD b []) with _ | lb
      · rw [ent_eq_zero_of_low_none p _ hlb, mul_zero]
      · have hbS : b ∈ (Finset.range cols.length).filter
            (fun s => w s ≠ 0 ∧ (low? p ((reduceCols p cols).getD s [])).isSome) :=
          Finset.mem_filter.mpr ⟨hb, hwb, by rw [hlb]; rfl⟩
        have hle := hs0max b hbS
        rw [show lowM p ((reduceCols p cols).getD b []) = lb + 1 from by
            rw [lowM, hlb]; rfl,
          show lowM p ((reduceCols p cols).getD s0 []) = l0 + 1 from by
            rw [lowM, hl0]; rfl] at hle
        have hne : lb ≠ l0 := by
          intro heq
          subst heq
          rcases Nat.lt_or_ge b s0 with hbs | hbs
          · exact reduceCols_lows_inj p cols b s0 lb hbs hs0m hlb hl0
          · have hsb : s0 < b := by omega
            exact reduceCols_lows_inj p cols s0 b lb hsb
              (Finset.mem_range.mp hb) hl0 hlb
        rw [ent_eq_zero_of_low_lt p _ lb hlb l0 (by omega), mul_zero]
  have hkey := h0 l0
  rw [Finset.sum_eq_single_of_mem s0 (Finset.mem_range.mpr hs0m) hside] at hkey
  exact mul_ne_zero hws0 (ent_low_ne_zero p _ l0 hl0) hkey

/-- The cycle property survives reduction: every reduced `(k+1)`-column pairs
to zero against the rows of `∂_k`. -/
theorem rCols_cycle (p : ℕ) [Fact p.Prime] (F : Filtration)
    (hWF : WFFiltration F) (k j : Nat)
    (hj : j < (rCols p F (k + 1)).length) (i : Nat) :
    ∑ r ∈ Finset.range (dCols p F k).length,
      ent p ((rCols p F (k + 1)).getD j []) r * ent p ((dCols p F k).getD r []) i
      = 0 := by
  have hmem : (rCols p F (k + 1)).getD j [] ∈ rCols p F (k + 1) := by
    rw [List.getD_eq_getElem _ _ hj]
    exact List.getElem_mem hj
  obtain ⟨f, hf⟩ := reduceCols_inSpan p (dCols p F (k + 1)) _ hmem
  calc ∑ r ∈ Finset.range (dCols p F k).length,
        ent p ((rCols p F (k + 1)).getD j []) r * ent p ((dCols p F k).getD r []) i
      = ∑ r ∈ Finset.range (dCols p F k).length,
          ∑ t ∈ Finset.range (dCols p F (k + 1)).length,
            f t * (ent p ((dCols p F (k + 1)).getD t []) r
              * ent p ((dCols p F k).getD r []) i) := by
        refine Finset.sum_congr rfl (fun r _ => ?_)
        rw [hf r, Finset.sum_mul]
        refine Finset.sum_congr rfl (fun t _ => ?_)
        rw [mul_assoc]
    _ = ∑ t ∈ Finset.range (dCols p F (k + 1)).length,
          f t * ∑ r ∈ Finset.range (dCols p F k).length,
            ent p ((dCols p F (k + 1)).getD t []) r
              * ent p ((dCols p F k).getD r []) i := by
        rw [Finset.sum_comm]
        exact Finset.sum_congr rfl (fun t _ => (Finset.mul_sum _ _ _).symm)
    _ = 0 := by
        refine Finset.sum_eq_zero (fun t ht => ?_)
        rw [dCols_cycle p F hWF k t (Finset.mem_range.mp ht) i, mul_zero]

/-- Pairing core: the low row of any reduced `(k+1)`-column is a valid row
index whose reduced `k`-column is zero. -/
theorem low_killer_zero (p : ℕ) [Fact p.Prime] (F : Filtration)
    (hWF : WFFiltration F) (k j l : Nat)
    (hj : j < (rCols p F (k + 1)).length)
    (hlow : low? p ((rCols p F (k + 1)).getD j []) = some l) :
    l < (rCols p F k).length ∧ low? p ((rCols p F k).getD l []) = none := by
  have hall : ∀ c ∈ rCols p F (k + 1), c.length = (F.sorted k).length := by
    intro c hc
    rw [rCols, reduceCols] at hc
    exact length_procFrom_cols p (F.sorted k).length (dCols p F (k + 1)) []
      (fun d hd => absurd hd (List.not_mem_nil d)) (dCols_col_length p F k) c hc
  have hmemj : (rCols p F (k + 1)).getD j [] ∈ rCols p F (k + 1) := by
    rw [List.getD_eq_getElem _ _ hj]
    exact List.getElem_mem hj
  have hlL : l < (F.sorted k).length := by
    have h1 := low_lt_length p _ l hlow
    rw [hall _ hmemj] at h1
    exact h1
  have hmk : (rCols p F k).length = (F.sorted k).length := by
    rw [rCols, length_reduceCols, length_dCols]
  refine ⟨by rw [hmk]; exact hlL, ?_⟩
  obtain ⟨w, hwa, hw0⟩ := exists_w_combo p (dCols p F k)
    (fun r => ent p ((rCols p F (k + 1)).getD j []) r)
    (fun i => rCols_cycle p F hWF k j hj i)
  have hwl : w l = ent p ((rCols p F (k + 1)).getD j []) l :=
    hwa l (fun r hr => ent_eq_zero_of_low_lt p _ l hlow r hr)
  have hwl0 : w l ≠ 0 := by
    rw [hwl]
    exact ent_low_ne_zero p _ l hlow
  have hres := span_zero_of_lows p (dCols p F k) w hw0 l
    (by rw [length_dCols]; exact hlL) hwl0
  rw [rCols]
  exact hres

/-! ### Counting persistence pairs -/

theorem countP_filterMap_range {β : Type} (pred : β → Bool) (Φ : Nat → Option β) :
    ∀ m, ((List.range m).filterMap Φ).countP pred
      = ∑ l ∈ Finset.range m, (Φ l).elim 0 (fun q => if pred q then 1 else 0) := by
  intro m
  induction m with
  | zero => rfl
  | succ m2 ih =>
    rw [List.range_succ, List.filterMap_append, List.countP_append, ih,
      Finset.sum_range_succ]
    congr 1
    rcases hx : Φ m2 with _ | q
    · simp [hx]
    · simp [hx, List.countP_cons]

theorem length_filterMap_range {β : Type} (Φ : Nat → Option β) :
    ∀ m, ((List.range m).filterMap Φ).length
      = ∑ l ∈ Finset.range m, (Φ l).elim 0 (fun _ => 1) := by
  intro m
  induction m with
  | zero => rfl
  | succ m2 ih =>
    rw [List.range_succ, List.filterMap_append, List.length_append, ih,
      Finset.sum_range_succ]
    congr 1
    rcases hx : Φ m2 with _ | q
    · simp [hx]
    · simp [hx]

/-- The search for the column claiming low `l` finds exactly the (unique)
column whose reduced low is `l`. -/
theorem find_low_eq (p : ℕ) [Fact p.Prime] (F : Filtration) (d j l : Nat)
    (hj : j < (rCols p F d).length)
    (hlow : low? p ((rCols p F d).getD j []) = some l) :
    (List.range (rCols p F d).length).find?
        (fun j2 => low? p ((rCols p F d).getD j2 []) == some l) = some j := by
  have hjc : j < (dCols p F d).length := by
    rw [← length_reduceCols p (dCols p F d)]
    exact hj
  rcases hfind : (List.range (rCols p F d).length).find?
      (fun j2 => low? p ((rCols p F d).getD j2 []) == some l) with _ | j0
  · exfalso
    have h2 := List.find?_eq_none.mp hfind j (List.mem_range.mpr hj)
    rw [hlow] at h2
    simp at h2
  · have hpred := List.find?_some hfind
    have hmem := List.mem_of_find?_eq_some hfind
    rw [List.mem_range] at hmem
    have hmemc : j0 < (dCols p F d).length := by
      rw [← length_reduceCols p (dCols p F d)]
      exact hmem
    have hj0low : low? p ((rCols p F d).getD j0 []) = some l := by
      simpa using hpred
    rcases Nat.lt_trichotomy j0 j with h | h | h
    · exact absurd hlow (reduceCols_lows_inj p (dCols p F d) j0 j l h hjc hj0low)
    · rw [h]
    · exact absurd hj0low
        (reduceCols_lows_inj p (dCols p F d) j j0 l h hmemc hlow)

theorem dCols_zero_length_mem (p : ℕ) (F : Filtration) :
    ∀ c ∈ dCols p F 0, c.length = 0 := by
  intro c hc
  rw [show dCols p F 0 = (F.sorted 0).map (fun _ => ([] : Col p)) from rfl] at hc
  obtain ⟨e, _, he⟩ := List.mem_map.mp hc
  rw [← he]
  rfl

/-- Vertices have empty boundary columns, and those stay empty under
reduction. -/
theorem rCols_zero_col (p : ℕ) (F : Filtration) (l : Nat) :
    (rCols p F 0).getD l [] = [] := by
  rcases Nat.lt_or_ge l (rCols p F 0).length with hl | hl
  · have hmem : (rCols p F 0).getD l [] ∈ rCols p F 0 := by
      rw [List.getD_eq_getElem _ _ hl]
      exact List.getElem_mem hl
    rw [rCols, reduceCols] at hmem
    exact List.length_eq_zero.mp
      (length_procFrom_cols p 0 (dCols p F 0) []
        (fun c hc => absurd hc (List.not_mem_nil c))
        (dCols_zero_length_mem p F) _ hmem)
  · exact List.getD_eq_default _ _ hl

theorem length_rCols (p : ℕ) (F : Filtration) (d : Nat) :
    (rCols p F d).length = (F.dimList d).length := by
  rw [rCols, length_reduceCols, length_dCols, length_sorted]

/-- The number of pairs of dimension `d` whose birth index is `i` is `1` or
`0` according to whether the reduced column at the filtration position of `i`
is zero. -/
theorem countP_birth (p : ℕ) (F : Filtration) (d i l0 : Nat)
    (hl0 : l0 < (F.dimList d).length)
    (hidx : ((F.sorted d).getD l0 ([], 0, 0)).2.2 = i) :
    (persistencePairs p F d).countP (fun q => q.birthInd == i)
      = if low? p ((rCols p F d).getD l0 []) = none then 1 else 0 := by
  have hidx2 := hidx
  simp at hidx2
  rw [persistencePairs, countP_filterMap_range]
  rw [Finset.sum_eq_single_of_mem l0
    (Finset.mem_range.mpr (by rw [length_rCols]; exact hl0))]
  · rcases heq : low? p ((rCols p F d).getD l0 []) with _ | x
    · rw [if_pos rfl]
      rcases hfind : (List.range (rCols p F (d + 1)).length).find?
          (fun j => low? p ((rCols p F (d + 1)).getD j []) == some l0) with _ | j
      · simp [hidx2]
      · simp [hidx2]
    · rw [if_neg (Option.some_ne_none x)]
      simp
  · intro l hl hlne
    have hlr : l < (F.dimList d).length := by
      rw [← length_rCols p F d]
      exact Finset.mem_range.mp hl
    rcases heq : low? p ((rCols p F d).getD l []) with _ | x
    · have hbne : ((F.sorted d).getD l ([], 0, 0)).2.2 ≠ i := by
        intro hcontra
        exact hlne (sorted_idx_inj F d l l0 hlr hl0 (by rw [hcontra, hidx]))
      simp at hbne
      rcases hfind : (List.range (rCols p F (d + 1)).length).find?
          (fun j => low? p ((rCols p F (d + 1)).getD j []) == some l) with _ | j
      · simp [hbne]
      · simp [hbne]
    · simp

/-- The number of dimension-`k` pairs whose death index is `i` is `1` or `0`
according to whether the reduced `(k+1)`-column at the filtration position of
`i` is nonzero. -/
theorem countP_death (p : ℕ) [Fact p.Prime] (F : Filtration)
    (hWF : WFFiltration F) (k i j0 : Nat)
    (hj0 : j0 < (F.dimList (k + 1)).length)
    (hidx : ((F.sorted (k + 1)).getD j0 ([], 0, 0)).2.2 = i) :
    (persistencePairs p F k).countP (fun q => q.deathInd == some i)
      = if (low? p ((rCols p F (k + 1)).getD j0 [])).isSome = true
        then 1 else 0 := by
  have hidx2 := hidx
  simp at hidx2
  have hj0r : j0 < (rCols p F (k + 1)).length := by
    rw [length_rCols]
    exact hj0
  rw [persistencePairs, countP_filterMap_range]
  rcases hx0 : low? p ((rCols p F (k + 1)).getD j0 []) with _ | l0
  · rw [if_neg (by simp)]
    refine Finset.sum_eq_zero (fun l _ => ?_)
    rcases heq : low? p ((rCols p F k).getD l []) with _ | x
    · rcases hfind : (List.range (rCols p F (k + 1)).length).find?
          (fun j => low? p ((rCols p F (k + 1)).getD j []) == some l) with _ | j
      · simp
      · have hpred := List.find?_some hfind
        have hjmem := List.mem_of_find?_eq_some hfind
        rw [List.mem_range] at hjmem
        have hjlow : low? p ((rCols p F (k + 1)).getD j []) = some l := by
          simpa using hpred
        have hjd : j < (F.dimList (k + 1)).length := by
          rw [← length_rCols p F (k + 1)]
          exact hjmem
        have hne : ((F.sorted (k + 1)).getD j ([], 0, 0)).2.2 ≠ i := by
          intro hcontra
          have hjj0 : j = j0 := sorted_idx_inj F (k + 1) j j0 hjd hj0
            (by rw [hcontra, hidx])
          rw [hjj0, hx0] at hjlow
          exact Option.noConfusion hjlow
        simp at hne
        simp [hne]
    · simp
  · rw [if_pos (show (some l0).isSome = true from rfl)]
    obtain ⟨hl0r, hl0zero⟩ := low_killer_zero p F hWF k j0 l0 hj0r hx0
    rw [Finset.sum_eq_single_of_mem l0 (Finset.mem_range.mpr hl0r)]
    · rw [hl0zero, find_low_eq p F (k + 1) j0 l0 hj0r hx0]
      simp [hidx2]
    · intro l _ hlne
      rcases heq : low? p ((rCols p F k).getD l []) with _ | x
      · rcases hfind : (List.range (rCols p F (k + 1)).length).find?
            (fun j => low? p ((rCols p F (k + 1)).getD j []) == some l) with _ | j
        · simp
        · have hpred := List.find?_some hfind
          have hjmem := List.mem_of_find?_eq_some hfind
          rw [List.mem_range] at hjmem
          have hjlow : low? p ((rCols p F (k + 1)).getD j []) = some l := by
            simpa using hpred
          have hjd : j < (F.dimList (k + 1)).length := by
            rw [← length_rCols p F (k + 1)]
            exact hjmem
          have hne : ((F.sorted (k + 1)).getD j ([], 0, 0)).2.2 ≠ i := by
            intro hcontra
            have hjj0 : j = j0 := sorted_idx_inj F (k + 1) j j0 hjd hj0
              (by rw [hcontra, hidx])
            rw [hjj0, hx0] at hjlow
            exact hlne (Option.some_injective _ hjlow.symm)
          simp at hne
          simp [hne]
      · simp

/-- The number of finite pairs of dimension `d` equals the number of nonzero
reduced `(d+1)`-columns. -/
theorem countP_finite (p : ℕ) [Fact p.Prime] (F : Filtration)
    (hWF : WFFiltration F) (d : Nat) :
    (persistencePairs p F d).countP (fun q => q.death.isSome)
      = ∑ jj ∈ Finset.range (rCols p F (d + 1)).length,
          if (low? p ((rCols p F (d + 1)).getD jj [])).isSome = true
          then 1 else 0 := by
  rw [persistencePairs, countP_filterMap_range]
  trans (∑ l ∈ Finset.range (rCols p F d).length,
    if (low? p ((rCols p F d).getD l []) = none
        ∧ ((List.range (rCols p F (d + 1)).length).find?
            (fun j => low? p ((rCols p F (d + 1)).getD j []) == some l)).isSome
              = true)
      then 1 else 0)
  · refine Finset.sum_congr rfl (fun l _ => ?_)
    rcases heq : low? p ((rCols p F d).getD l []) with _ | x
    · rcases hfind : (List.range (rCols p F (d + 1)).length).find?
          (fun j => low? p ((rCols p F (d + 1)).getD j []) == some l) with _ | j
      · simp
      · simp
    · simp
  · rw [← Finset.card_filter, ← Finset.card_filter]
    refine Finset.card_bij'
      (fun l _ => ((List.range (rCols p F (d + 1)).length).find?
          (fun j => low? p ((rCols p F (d + 1)).getD j []) == some l)).getD 0)
      (fun jj _ => (low? p ((rCols p F (d + 1)).getD jj [])).getD 0)
      ?_ ?_ ?_ ?_
    · intro l hl
      dsimp only
      obtain ⟨-, hnone, hfindSome⟩ :
          l ∈ Finset.range (rCols p F d).length
            ∧ low? p ((rCols p F d).getD l []) = none
            ∧ ((List.range (rCols p F (d + 1)).length).find?
                (fun j => low? p ((rCols p F (d + 1)).getD j []) == some l)).isSome
                  = true := by
        have h2 := Finset.mem_filter.mp hl
        exact ⟨h2.1, h2.2.1, h2.2.2⟩
      obtain ⟨j1, hj1⟩ := Option.isSome_iff_exists.mp hfindSome
      rw [hj1, Option.getD_some]
      have hj1mem := List.mem_of_find?_eq_some hj1
      rw [List.mem_range] at hj1mem
      have hj1low : low? p ((rCols p F (d + 1)).getD j1 []) = some l := by
        simpa using List.find?_some hj1
      refine Finset.mem_filter.mpr ⟨Finset.mem_range.mpr hj1mem, ?_⟩
      rw [hj1low]
      rfl
    · intro jj hjj
      dsimp only
      have h2 := Finset.mem_filter.mp hjj
      have hjjr : jj < (rCols p F (d + 1)).length := Finset.mem_range.mp h2.1
      obtain ⟨l1, hl1⟩ := Option.isSome_iff_exists.mp h2.2
      rw [hl1, Option.getD_some]
      obtain ⟨hl1r, hl1zero⟩ := low_killer_zero p F hWF d jj l1 hjjr hl1
      refine Finset.mem_filter.mpr ⟨Finset.mem_range.mpr hl1r, hl1zero, ?_⟩
      rw [find_low_eq p F (d + 1) jj l1 hjjr hl1]
      rfl
    · intro l hl
      dsimp only
      have h2 := Finset.mem_filter.mp hl
      obtain ⟨j1, hj1⟩ := Option.isSome_iff_exists.mp h2.2.2
      have hj1low : low? p ((rCols p F (d + 1)).getD j1 []) = some l := by
        simpa using List.find?_some hj1
      rw [hj1, Option.getD_some, hj1low, Option.getD_some]
    · intro jj hjj
      dsimp only
      have h2 := Finset.mem_filter.mp hjj
      have hjjr : jj < (rCols p F (d + 1)).length := Finset.mem_range.mp h2.1
      obtain ⟨l1, hl1⟩ := Option.isSome_iff_exists.mp h2.2
      rw [hl1, Option.getD_some, find_low_eq p F (d + 1) jj l1 hjjr hl1,
        Option.getD_some]

theorem length_persistencePairs (p : ℕ) (F : Filtration) (d : Nat) :
    (persistencePairs p F d).length
      = ∑ l ∈ Finset.range (rCols p F d).length,
          if low? p ((rCols p F d).getD l []) = none then 1 else 0 := by
  rw [persistencePairs, length_filterMap_range]
  refine Finset.sum_congr rfl (fun l _ => ?_)
  rcases heq : low? p ((rCols p F d).getD l []) with _ | x
  · rcases hfind : (List.range (rCols p F (d + 1)).length).find?
        (fun j => low? p ((rCols p F (d + 1)).getD j []) == some l) with _ | j
    · simp
    · simp
  · simp

theorem finite_add_infinite (p : ℕ) (F : Filtration) (d : Nat) :
    (persistencePairs p F d).countP (fun q => q.death.isSome)
      + (persistencePairs p F d).countP (fun q => q.death == none)
      = (persistencePairs p F d).length := by
  rw [List.length_eq_countP_add_countP (fun q => q.death.isSome)]
  congr 1
  refine List.countP_congr ?_
  intro q _
  cases hq : q.death
  · simp [hq]
  · simp [hq]

theorem zero_add_nonzero_count (p : ℕ) (F : Filtration) (d : Nat) :
    (∑ l ∈ Finset.range (rCols p F d).length,
      if low? p ((rCols p F d).getD l []) = none then 1 else 0)
      + (∑ l ∈ Finset.range (rCols p F d).length,
          if (low? p ((rCols p F d).getD l [])).isSome = true then 1 else 0)
      = (F.dimList d).length := by
  rw [← Finset.sum_add_distrib]
  calc ∑ l ∈ Finset.range (rCols p F d).length,
        ((if low? p ((rCols p F d).getD l []) = none then 1 else 0)
          + if (low? p ((rCols p F d).getD l [])).isSome = true then 1 else 0)
      = ∑ l ∈ Finset.range (rCols p F d).length, 1 := by
        refine Finset.sum_congr rfl (fun l _ => ?_)
        rcases hx : low? p ((rCols p F d).getD l []) with _ | x
        · simp
        · simp
    _ = (rCols p F d).length := by
        rw [Finset.sum_const, smul_eq_mul, mul_one, Finset.card_range]
    _ = (F.dimList d).length := length_rCols p F d

theorem nonzero_count_zero (p : ℕ) (F : Filtration) :
    (∑ l ∈ Finset.range (rCols p F 0).length,
      if (low? p ((rCols p F 0).getD l [])).isSome = true then 1 else 0) = 0 :=
  Finset.sum_eq_zero (fun l _ => by rw [rCols_zero_col]; simp [low?])

theorem nonzero_count_top (p : ℕ) (F : Filtration) :
    (∑ l ∈ Finset.range (rCols p F F.simps.length).length,
      if (low? p ((rCols p F F.simps.length).getD l [])).isSome = true
      then 1 else 0) = 0 := by
  have h0 : (rCols p F F.simps.length).length = 0 := by
    rw [length_rCols, dimList_nil_of_le F _ (le_refl _)]
    rfl
  rw [h0]
  rfl

/-! ## Claim theorems -/

/-- C1: On the filtration built by `add_recursive(0, [0,1,2])`,
`add_recursive(1, [2,3])`, `add(2, [1,3])` and reduced over the prime field
`p = 2`, the persistence pairs are exactly: dimension 0 → (birth 0, death ∞,
birth-index 0, no death-index), (0, 0, 1, 0), (0, 0, 2, 1), (1, 1, 3, 3);
dimension 1 → (0, 0, 2, 0) and (2, ∞, 4, no death-index) — the notebook's
recorded output. -/
theorem quickstart_persistence_pairs :
    persistencePairs 2 quickstartFiltration 0 =
      [⟨0, 0, none, 0, none⟩, ⟨0, 0, some 0, 1, some 0⟩,
       ⟨0, 0, some 0, 2, some 1⟩, ⟨0, 1, some 1, 3, some 3⟩] ∧
    persistencePairs 2 quickstartFiltration 1 =
      [⟨1, 0, some 0, 2, some 0⟩, ⟨1, 2, none, 4, none⟩] := by decide

/-- C10: the reduction pass is idempotent — re-running it on the reduced
boundary matrix of any filtration, in any dimension, leaves every column
unchanged. -/
theorem reduction_idempotent (p : ℕ) [Fact p.Prime] (F : Filtration) (d : Nat) :
    reduceCols p (rCols p F d) = rCols p F d :=
  procFrom_idem p (dCols p F d) []

/-- C10 witness: idempotence at `p = 2` on the quickstart filtration's
1-dimensional boundary matrix. -/
theorem reduction_idempotent_witness :
    reduceCols 2 (rCols 2 quickstartFiltration 1) = rCols 2 quickstartFiltration 1 :=
  reduction_idempotent 2 quickstartFiltration 1

/-- C7: `add` fails with `FaceMissing` when a codimension-1 face is absent,
otherwise appends the simplex with the next free index for its dimension; in
particular `add [0,1]` on the empty complex fails with `FaceMissing`. -/
theorem add_faceMissing_or_append :
    (∀ (X : SimplicialComplex) (σ : Simplex),
      (∃ τ ∈ facets σ, X.memS τ = false) →
        X.add σ = (X, some Err.FaceMissing)) ∧
    (∀ (X : SimplicialComplex) (σ : Simplex),
      (∀ τ ∈ facets σ, X.memS τ = true) →
        X.add σ = (X.push σ, none) ∧
        (X.add σ).1.dimList (σ.length - 1) = X.dimList (σ.length - 1) ++ [σ]) ∧
    SimplicialComplex.empty.add [0, 1]
      = (SimplicialComplex.empty, some Err.FaceMissing) := by
  refine ⟨?_, ?_, by decide⟩
  · rintro X σ ⟨τ, hτ, hmem⟩
    have hall : (facets σ).all (fun τ => X.memS τ) = false :=
      List.all_eq_false.mpr ⟨τ, hτ, by simp [hmem]⟩
    simp [SimplicialComplex.add, hall]
  · intro X σ h
    have hall : (facets σ).all (fun τ => X.memS τ) = true :=
      List.all_eq_true.mpr h
    have hadd : X.add σ = (X.push σ, none) := by
      simp [SimplicialComplex.add, hall]
    exact ⟨hadd, by rw [hadd]; exact dimList_push_self X σ⟩

/-- C7 witness: the failing branch on the empty complex and the appending
branch once both vertices are present. -/
theorem add_faceMissing_or_append_witness :
    SimplicialComplex.empty.add [0, 1]
      = (SimplicialComplex.empty, some Err.FaceMissing) ∧
    (SimplicialComplex.empty.addRecursive [0, 1]).add [0, 1]
      = ((SimplicialComplex.empty.addRecursive [0, 1]).push [0, 1], none) :=
  ⟨add_faceMissing_or_append.1 SimplicialComplex.empty [0, 1]
      ⟨[1], by decide, by decide⟩,
    (add_faceMissing_or_append.2.1 (SimplicialComplex.empty.addRecursive [0, 1])
      [0, 1] (by decide)).1⟩

/-- C8: `add_recursive` inserts every (nonempty) subtuple of the simplex, so
it never fails for missing faces; and on the notebook example the
`get_simplices` output is exactly the recorded insertion order, dimension by
dimension. -/
theorem addRecursive_faces_and_order :
    (∀ (X : SimplicialComplex) (σ τ : Simplex), τ.Sublist σ → τ ≠ [] →
        (X.addRecursive σ).memS τ = true) ∧
    ((((SimplicialComplex.empty.addRecursive [0, 1, 2]).addRecursive
        [2, 3]).add [1, 3]).1.getSimplices
      = [[0], [1], [2], [3], [0, 1], [0, 2], [1, 2], [2, 3], [1, 3], [0, 1, 2]]) :=
  ⟨addRecursive_mem, by decide⟩

/-- C8 witness: the face `[0,2]` of `[0,1,2]` is present after a recursive
insertion into the empty complex. -/
theorem addRecursive_faces_and_order_witness :
    (SimplicialComplex.empty.addRecursive [0, 1, 2]).memS [0, 2] = true :=
  addRecursive_faces_and_order.1 SimplicialComplex.empty [0, 1, 2] [0, 2]
    (by decide) (by decide)

/-- C3 counterexample: identity of simplices is by ordered vertex tuple, not
by vertex set — with `[0,1]` present, `[1,0]` is not recognized as present,
and adding it succeeds and appends a second, distinct 1-simplex. -/
theorem ordered_identity_cex :
    (SimplicialComplex.empty.addRecursive [0, 1]).memS [1, 0] = false ∧
    ((SimplicialComplex.empty.addRecursive [0, 1]).add [1, 0]).2 = none ∧
    ((SimplicialComplex.empty.addRecursive [0, 1]).add [1, 0]).1.dimList 1
      = [[0, 1], [1, 0]] := by decide

/-- C3 (amended): two simplices are the same entity iff their ordered vertex
tuples are equal — inserting a simplex recursively identifies, and leaves
untouched, exactly the already-present equal tuples: when the simplex and all
its subtuple faces are present as tuples, `add_recursive` changes nothing. -/
theorem simplices_identified_by_tuple :
    ∀ (X : SimplicialComplex) (σ : Simplex),
      (∀ d ∈ List.range σ.length, ∀ ρ ∈ chooseLen (d + 1) σ, X.memS ρ = true) →
      X.addRecursive σ = X :=
  addRecursive_of_present

/-- C3 witness: re-inserting `[0,1]` recursively into the complex that
already holds it changes nothing. -/
theorem simplices_identified_by_tuple_witness :
    (SimplicialComplex.empty.addRecursive [0, 1]).addRecursive [0, 1]
      = SimplicialComplex.empty.addRecursive [0, 1] :=
  simplices_identified_by_tuple (SimplicialComplex.empty.addRecursive [0, 1])
    [0, 1] (by decide)

/-- C6: filtration `add` fails with `InvalidFiltration` whenever the given
birth is smaller than the stored birth of some (present) face, and every
failing `add` — this one or any other — leaves the filtration unchanged. -/
theorem filtration_add_invalid_and_pure :
    (∀ (F : Filtration) (b : ℚ) (σ : Simplex),
      (∀ τ ∈ facets σ, F.memS τ = true) →
      (∃ τ ∈ facets σ, b < (F.birthOf τ).getD b) →
        F.add b σ = (F, some Err.InvalidFiltration)) ∧
    (∀ (F : Filtration) (b : ℚ) (σ : Simplex) (e : Err),
      (F.add b σ).2 = some e → (F.add b σ).1 = F) := by
  constructor
  · rintro F b σ h1 ⟨τ, hτ, hb⟩
    have hall1 : (facets σ).all (fun τ => F.memS τ) = true :=
      List.all_eq_true.mpr h1
    have hbo : ∃ bτ, F.birthOf τ = some bτ ∧ b < bτ := by
      cases hx : F.birthOf τ with
      | none => rw [hx] at hb; simp at hb
      | some bτ => rw [hx] at hb; exact ⟨bτ, rfl, by simpa using hb⟩
    obtain ⟨bτ, hx, hlt⟩ := hbo
    have hall2 : (facets σ).all (fun τ => decide ((F.birthOf τ).getD 0 ≤ b))
        = false := by
      refine List.all_eq_false.mpr ⟨τ, hτ, ?_⟩
      simp [hx]
      exact hlt
    simp [Filtration.add, hall1, hall2]
  · intro F b σ e h
    cases h1 : (facets σ).all (fun τ => F.memS τ) with
    | false => simp [Filtration.add, h1]
    | true =>
      cases h2 : (facets σ).all (fun τ => decide ((F.birthOf τ).getD 0 ≤ b)) with
      | false => simp [Filtration.add, h1, h2]
      | true => simp [Filtration.add, h1, h2] at h

/-- C6 witness: with vertices `[0]`, `[1]` stored at birth `1`, adding the
edge `[0,1]` at birth `0` fails with `InvalidFiltration` and the filtration is
unchanged. -/
theorem filtration_add_invalid_and_pure_witness :
    (((Filtration.empty.addRecursive 1 [0]).1.addRecursive 1 [1]).1.add 0 [0, 1]
      = (((Filtration.empty.addRecursive 1 [0]).1.addRecursive 1 [1]).1,
          some Err.InvalidFiltration)) ∧
    ((((Filtration.empty.addRecursive 1 [0]).1.addRecursive 1 [1]).1.add 0 [0, 1]).1
      = ((Filtration.empty.addRecursive 1 [0]).1.addRecursive 1 [1]).1) :=
  ⟨filtration_add_invalid_and_pure.1 _ 0 [0, 1] (by decide)
      ⟨[1], by decide, by decide⟩,
    filtration_add_invalid_and_pure.2 _ 0 [0, 1] Err.InvalidFiltration (by decide)⟩

/-- C4: every Filtration produced by the Rips builder satisfies monotonicity:
each codimension-1 face of a stored simplex is stored one dimension lower
with a smaller-or-equal birth, because each simplex's birth equals the
maximum pairwise distance among its vertices. -/
theorem rips_monotone (n : Nat) (D : Nat → Nat → ℚ) (rmax : Option ℚ)
    (k d : Nat) (σ : Simplex) (b : ℚ)
    (hmem : (σ, b) ∈ (ripsFiltration n D rmax k).dimList d)
    (t : Nat) (ht : t < σ.length) (hd : 1 ≤ d) :
    ∃ b', (σ.eraseIdx t, b') ∈ (ripsFiltration n D rmax k).dimList (d - 1)
      ∧ b' ≤ b := by
  have hdk : d < k + 1 := by
    by_contra hc
    rw [rips_dimList_of_le n D rmax k d (by omega)] at hmem
    cases hmem
  rw [rips_dimList n D rmax k d hdk] at hmem
  obtain ⟨hlen, ⟨hbnd, hsort, hrOK⟩, hb⟩ := (mem_ripsLevel n D rmax d σ b).mp hmem
  have hsub : (σ.eraseIdx t).Sublist σ := List.eraseIdx_sublist σ t
  refine ⟨maxPairwise D (σ.eraseIdx t), ?_, ?_⟩
  · rw [rips_dimList n D rmax k (d - 1) (by omega)]
    refine (mem_ripsLevel n D rmax (d - 1) _ _).mpr ⟨?_, ⟨?_, ?_, ?_⟩, rfl⟩
    · rw [List.length_eraseIdx_of_lt ht]
      omega
    · exact fun v hv => hbnd v (hsub.mem hv)
    · exact hsort.sublist hsub
    · exact hrOK.sublist hsub
  · rw [hb]
    exact maxPairwise_sublist_le D _ σ hsub

/-- C4 witness: the two-point Rips filtration at unit distance — the vertex
face of the edge `[0,1]` is present at a smaller-or-equal birth. -/
theorem rips_monotone_witness :
    ∃ b', ([1], b') ∈ (ripsFiltration 2 (fun _ _ => 1) none 1).dimList 0
      ∧ b' ≤ 1 :=
  rips_monotone 2 (fun _ _ => 1) none 1 1 [0, 1] 1 (by decide) 0 (by decide)
    (by decide)

/-- C5: for every distance matrix and in-range seed, the landmark selector
returns a permutation of `0..n-1` starting at the seed, together with a
parallel distance sequence of length `n+1` that is non-increasing and ends
at `0`. -/
theorem greedy_landmarks_spec (n : Nat) (D : Nat → Nat → ℚ) (s : Nat)
    (hs : s < n) :
    ∃ inds dists, greedy_landmarks_hausdorff n D s = .ok (inds, dists) ∧
      inds.Perm (List.range n) ∧ inds.head? = some s ∧
      dists.length = n + 1 ∧ dists.getD n 0 = 0 ∧
      List.Chain' (fun a b => b ≤ a) dists := by
  obtain ⟨h1, h2, h3, h4, h5, h6⟩ := glIter_inv n D s hs (n - 1) le_rfl
  set st := glIter n D (n - 1) ([s], fun j => D s j, [maxOver n (fun j => D s j)])
    with hst
  refine ⟨st.1, st.2.2 ++ [0], ?_, ?_, ?_, ?_, ?_, ?_⟩
  · rw [greedy_landmarks_hausdorff, if_pos hs]
  · apply List.perm_of_nodup_nodup_toFinset_eq h1 (List.nodup_range n)
    have hsub : st.1.toFinset ⊆ (List.range n).toFinset := fun x hx =>
      List.mem_toFinset.mpr (List.mem_range.mpr (h2 x (List.mem_toFinset.mp hx)))
    refine Finset.eq_of_subset_of_card_le hsub ?_
    rw [List.toFinset_card_of_nodup (List.nodup_range n), List.length_range,
      List.toFinset_card_of_nodup h1, h3]
    omega
  · exact h4
  · rw [List.length_append, h5, List.length_singleton]
    omega
  · have hlt : n < (st.2.2 ++ [(0 : ℚ)]).length := by
      rw [List.length_append, h5, List.length_singleton]
      omega
    rw [List.getD_eq_getElem _ _ hlt, List.getElem_append_right (by omega),
      List.getElem_singleton]
  · obtain ⟨hc1, hc2, hc3⟩ := List.chain'_append.mp h6
    refine List.chain'_append.mpr ⟨hc1, List.chain'_singleton _, ?_⟩
    intro x hx y hy
    simp only [List.head?_cons] at hy
    obtain rfl : (0 : ℚ) = y := Option.some.inj (Option.mem_def.mp hy)
    have hmx := hc3 x hx (maxOver n st.2.1) (by simp)
    exact le_trans (maxOver_nonneg n st.2.1) hmx

/-- C5 witness: three points at mutual distance `1`, seed `0`. -/
theorem greedy_landmarks_spec_witness :
    ∃ inds dists,
      greedy_landmarks_hausdorff 3 (fun i j => if i = j then 0 else 1) 0
        = .ok (inds, dists) ∧
      inds.Perm (List.range 3) ∧ inds.head? = some 0 ∧
      dists.length = 3 + 1 ∧ dists.getD 3 0 = 0 ∧
      List.Chain' (fun a b => b ≤ a) dists :=
  greedy_landmarks_spec 3 (fun i j => if i = j then 0 else 1) 0 (by decide)

/-- C9: within the declared capacity bounds the two storage strategies are
behaviorally equivalent: any sequence of `add`/`add_recursive` operations on
at most `n` vertices and dimension at most `d` drives
`LightSimplicialComplex n d` and `SimplicialComplex` to the same complex —
so the `get_simplices` outputs coincide and reduction over any prime field
yields identical homology dimensions. -/
theorem light_general_equivalence (n d : Nat) (ops : List Op)
    (hb : ∀ op ∈ ops, op.simplex.length ≤ d + 1 ∧ ∀ v ∈ op.simplex, v < n) :
    (runOpsL (LightSimplicialComplex.empty n d) ops).toComplex
        = runOps SimplicialComplex.empty ops ∧
    (runOpsL (LightSimplicialComplex.empty n d) ops).getSimplices
        = (runOps SimplicialComplex.empty ops).getSimplices ∧
    ∀ (p k : ℕ),
      hdim p (runOpsL (LightSimplicialComplex.empty n d) ops).toComplex k
        = hdim p (runOps SimplicialComplex.empty ops) k := by
  have hrel0 : LightRel n d SimplicialComplex.empty
      (LightSimplicialComplex.empty n d) := by
    refine ⟨rfl, rfl, rfl, ?_⟩
    intro k σ hσ
    rw [show (SimplicialComplex.empty.simps.getD k []) = [] from rfl] at hσ
    cases hσ
  have hrel := runOps_rel n d ops (fun op h => (hb op h).2) _ _ hrel0
  have h1 := toComplex_of_rel n d _ _ hrel
  exact ⟨h1, by rw [LightSimplicialComplex.getSimplices, h1],
    fun p k => by rw [h1]⟩

/-- C9 witness: the notebook's operation sequence in a capacity-4,
dimension-2 light complex agrees with the general complex, including the
recorded first homology dimension over `p = 2`. -/
theorem light_general_equivalence_witness :
    (runOpsL (LightSimplicialComplex.empty 4 2)
        [.addRec [0, 1, 2], .addRec [2, 3], .add [1, 3]]).toComplex
      = runOps SimplicialComplex.empty
          [.addRec [0, 1, 2], .addRec [2, 3], .add [1, 3]] ∧
    hdim 2 (runOpsL (LightSimplicialComplex.empty 4 2)
        [.addRec [0, 1, 2], .addRec [2, 3], .add [1, 3]]).toComplex 1
      = hdim 2 (runOps SimplicialComplex.empty
          [.addRec [0, 1, 2], .addRec [2, 3], .add [1, 3]]) 1 :=
  ⟨(light_general_equivalence 4 2 _ (by decide)).1,
    (light_general_equivalence 4 2 _ (by decide)).2.2 2 1⟩

/-- C2 (counterexample to the claimed text): in the quickstart filtration the
dimension-1 simplex with index `0` (the edge `[0,1]`, which dies into a
dimension-0 pair) is the birth index of *no* dimension-1 pair, so not every
simplex index appears as the birth index of exactly one pair. -/
theorem birth_index_cex :
    0 < (quickstartFiltration.dimList 1).length ∧
    (persistencePairs 2 quickstartFiltration 1).countP
      (fun q => q.birthInd == 0) = 0 := by
  decide

/-- C2 (corrected, spec section 8): over a prime field, for every well-formed
filtration, (i) every dimension-0 simplex index is the birth index of exactly
one dimension-0 pair; (ii) every `(k+1)`-dimensional simplex index is exactly
one of: the birth index of a `(k+1)`-dimensional pair, or the death index of
a `k`-dimensional pair (in particular each index is the death index of at
most one pair); (iii) consequently twice the number of finite pairs plus the
number of infinite pairs equals the total number of simplices. -/
theorem pairing_bijection (p : ℕ) [Fact p.Prime] (F : Filtration)
    (hWF : WFFiltration F) :
    (∀ i, i < (F.dimList 0).length →
      (persistencePairs p F 0).countP (fun q => q.birthInd == i) = 1) ∧
    (∀ k i, i < (F.dimList (k + 1)).length →
      (persistencePairs p F (k + 1)).countP (fun q => q.birthInd == i)
        + (persistencePairs p F k).countP (fun q => q.deathInd == some i)
        = 1) ∧
    2 * (∑ k ∈ Finset.range F.simps.length,
        (persistencePairs p F k).countP (fun q => q.death.isSome))
      + (∑ k ∈ Finset.range F.simps.length,
          (persistencePairs p F k).countP (fun q => q.death == none))
      = ∑ k ∈ Finset.range F.simps.length, (F.dimList k).length := by
  refine ⟨?_, ?_, ?_⟩
  · intro i hi
    obtain ⟨l0, hl0, hidx⟩ := sorted_idx_surj F 0 i hi
    rw [countP_birth p F 0 i l0 hl0 hidx, rCols_zero_col]
    simp [low?]
  · intro k i hi
    obtain ⟨j0, hj0, hidx⟩ := sorted_idx_surj F (k + 1) i hi
    rw [countP_birth p F (k + 1) i j0 hj0 hidx,
      countP_death p F hWF k i j0 hj0 hidx]
    rcases hx : low? p ((rCols p F (k + 1)).getD j0 []) with _ | x
    · simp
    · simp
  · calc 2 * (∑ k ∈ Finset.range F.simps.length,
            (persistencePairs p F k).countP (fun q => q.death.isSome))
          + (∑ k ∈ Finset.range F.simps.length,
              (persistencePairs p F k).countP (fun q => q.death == none))
        = (∑ k ∈ Finset.range F.simps.length,
            (persistencePairs p F k).countP (fun q => q.death.isSome))
          + ((∑ k ∈ Finset.range F.simps.length,
              (persistencePairs p F k).countP (fun q => q.death.isSome))
            + (∑ k ∈ Finset.range F.simps.length,
                (persistencePairs p F k).countP (fun q => q.death == none))) := by
          rw [two_mul, add_assoc]
      _ = (∑ k ∈ Finset.range F.simps.length,
            ∑ jj ∈ Finset.range (rCols p F (k + 1)).length,
              if (low? p ((rCols p F (k + 1)).getD jj [])).isSome = true
              then 1 else 0)
          + (∑ k ∈ Finset.range F.simps.length,
              ∑ l ∈ Finset.range (rCols p F k).length,
                if low? p ((rCols p F k).getD l []) = none then 1 else 0) := by
          congr 1
          · exact Finset.sum_congr rfl (fun k _ => countP_finite p F hWF k)
          · rw [← Finset.sum_add_distrib]
            exact Finset.sum_congr rfl (fun k _ => by
              rw [finite_add_infinite, length_persistencePairs])
      _ = (∑ k ∈ Finset.range F.simps.length,
            ∑ jj ∈ Finset.range (rCols p F k).length,
              if (low? p ((rCols p F k).getD jj [])).isSome = true
              then 1 else 0)
          + (∑ k ∈ Finset.range F.simps.length,
              ∑ l ∈ Finset.range (rCols p F k).length,
                if low? p ((rCols p F k).getD l []) = none then 1 else 0) := by
          congr 1
          calc (∑ k ∈ Finset.range F.simps.length,
                ∑ jj ∈ Finset.range (rCols p F (k + 1)).length,
                  if (low? p ((rCols p F (k + 1)).getD jj [])).isSome = true
                  then 1 else 0)
              = (∑ k ∈ Finset.range F.simps.length,
                  ∑ jj ∈ Finset.range (rCols p F (k + 1)).length,
                    if (low? p ((rCols p F (k + 1)).getD jj [])).isSome = true
                    then 1 else 0)
                + (∑ jj ∈ Finset.range (rCols p F 0).length,
                    if (low? p ((rCols p F 0).getD jj [])).isSome = true
                    then 1 else 0) := by
                rw [nonzero_count_zero, add_zero]
            _ = ∑ k ∈ Finset.range (F.simps.length + 1),
                  ∑ jj ∈ Finset.range (rCols p F k).length,
                    if (low? p ((rCols p F k).getD jj [])).isSome = true
                    then 1 else 0 :=
                (Finset.sum_range_succ'
                  (fun k => ∑ jj ∈ Finset.range (rCols p F k).length,
                    if (low? p ((rCols p F k).getD jj [])).isSome = true
                    then 1 else 0) F.simps.length).symm
            _ = (∑ k ∈ Finset.range F.simps.length,
                  ∑ jj ∈ Finset.range (rCols p F k).length,
                    if (low? p ((rCols p F k).getD jj [])).isSome = true
                    then 1 else 0)
                + (∑ jj ∈ Finset.range (rCols p F F.simps.length).length,
                    if (low? p ((rCols p F F.simps.length).getD jj [])).isSome
                        = true then 1 else 0) :=
                Finset.sum_range_succ
                  (fun k => ∑ jj ∈ Finset.range (rCols p F k).length,
                    if (low? p ((rCols p F k).getD jj [])).isSome = true
                    then 1 else 0) F.simps.length
            _ = ∑ k ∈ Finset.range F.simps.length,
                  ∑ jj ∈ Finset.range (rCols p F k).length,
                    if (low? p ((rCols p F k).getD jj [])).isSome = true
                    then 1 else 0 := by
                rw [nonzero_count_top, add_zero]
      _ = ∑ k ∈ Finset.range F.simps.length, (F.dimList k).length := by
          rw [← Finset.sum_add_distrib]
          refine Finset.sum_congr rfl (fun k _ => ?_)
          rw [Nat.add_comm]
          exact zero_add_nonzero_count p F k

/-- C2 witness: the pairing law instantiated on the quickstart filtration
over `p = 2`, at dimension-0 index `2` and dimension-1 index `0`. -/
theorem pairing_bijection_witness :
    WFFiltration quickstartFiltration ∧
    (persistencePairs 2 quickstartFiltration 0).countP
      (fun q => q.birthInd == 2) = 1 ∧
    (persistencePairs 2 quickstartFiltration 1).countP
        (fun q => q.birthInd == 0)
      + (persistencePairs 2 quickstartFiltration 0).countP
          (fun q => q.deathInd == some 0) = 1 := by
  have hWF : WFFiltration quickstartFiltration := by decide
  haveI : Fact (Nat.Prime 2) := ⟨by norm_num⟩
  refine ⟨hWF, ?_, ?_⟩
  · exact (pairing_bijection 2 quickstartFiltration hWF).1 2 (by decide)
  · exact (pairing_bijection 2 quickstartFiltration hWF).2.1 0 0 (by decide)

end BATS
